import Mathlib

/-!
# Verification of `linguist-termcolor` (src/lib.rs)

A shallow embedding of the core of the `linguist-termcolor` crate:

* the tokenizer (`tokenize`, regex `[\pL\pN+*_#-]+` via `find_iter`),
* the search-index builder (`Linguist::colors`),
* the query function (`ColorMap::query`),
* the nearest-color search (`find_nearest_color`),
* the fixed xterm palette (`XTERM_COLORS`).

Rust machine integers are modelled as `Nat` (`u32` parsing checks the
`2 ^ 32` bound explicitly, as `u32::from_str_radix` errors on overflow).
Fallible operations return `Option`; `none` models a Rust panic
(`unwrap` failures and out-of-bounds / non-char-boundary string slicing).
The letter and number character classes of the tokenizer regex are the
Unicode general categories L and N denoted by `\pL` / `\pN`, embedded
as an explicit codepoint-range table.
-/

set_option maxRecDepth 100000

/-- The codepoint ranges of the Unicode general categories L (letter)
and N (number), as inclusive `(first, last)` pairs in ascending order —
the sets denoted by the regex classes `\pL` and `\pN` (generated from
the Unicode Character Database, version 14.0.0). -/
def unicodeLetterNumberRanges : List (Nat × Nat) := [
  (48, 57), (65, 90), (97, 122), (170, 170), (178, 179), (181, 181),
  (185, 186), (188, 190), (192, 214), (216, 246), (248, 705), (710, 721),
  (736, 740), (748, 748), (750, 750), (880, 884), (886, 887), (890, 893),
  (895, 895), (902, 902), (904, 906), (908, 908), (910, 929), (931, 1013),
  (1015, 1153), (1162, 1327), (1329, 1366), (1369, 1369), (1376, 1416), (1488, 1514),
  (1519, 1522), (1568, 1610), (1632, 1641), (1646, 1647), (1649, 1747), (1749, 1749),
  (1765, 1766), (1774, 1788), (1791, 1791), (1808, 1808), (1810, 1839), (1869, 1957),
  (1969, 1969), (1984, 2026), (2036, 2037), (2042, 2042), (2048, 2069), (2074, 2074),
  (2084, 2084), (2088, 2088), (2112, 2136), (2144, 2154), (2160, 2183), (2185, 2190),
  (2208, 2249), (2308, 2361), (2365, 2365), (2384, 2384), (2392, 2401), (2406, 2415),
  (2417, 2432), (2437, 2444), (2447, 2448), (2451, 2472), (2474, 2480), (2482, 2482),
  (2486, 2489), (2493, 2493), (2510, 2510), (2524, 2525), (2527, 2529), (2534, 2545),
  (2548, 2553), (2556, 2556), (2565, 2570), (2575, 2576), (2579, 2600), (2602, 2608),
  (2610, 2611), (2613, 2614), (2616, 2617), (2649, 2652), (2654, 2654), (2662, 2671),
  (2674, 2676), (2693, 2701), (2703, 2705), (2707, 2728), (2730, 2736), (2738, 2739),
  (2741, 2745), (2749, 2749), (2768, 2768), (2784, 2785), (2790, 2799), (2809, 2809),
  (2821, 2828), (2831, 2832), (2835, 2856), (2858, 2864), (2866, 2867), (2869, 2873),
  (2877, 2877), (2908, 2909), (2911, 2913), (2918, 2927), (2929, 2935), (2947, 2947),
  (2949, 2954), (2958, 2960), (2962, 2965), (2969, 2970), (2972, 2972), (2974, 2975),
  (2979, 2980), (2984, 2986), (2990, 3001), (3024, 3024), (3046, 3058), (3077, 3084),
  (3086, 3088), (3090, 3112), (3114, 3129), (3133, 3133), (3160, 3162), (3165, 3165),
  (3168, 3169), (3174, 3183), (3192, 3198), (3200, 3200), (3205, 3212), (3214, 3216),
  (3218, 3240), (3242, 3251), (3253, 3257), (3261, 3261), (3293, 3294), (3296, 3297),
  (3302, 3311), (3313, 3314), (3332, 3340), (3342, 3344), (3346, 3386), (3389, 3389),
  (3406, 3406), (3412, 3414), (3416, 3425), (3430, 3448), (3450, 3455), (3461, 3478),
  (3482, 3505), (3507, 3515), (3517, 3517), (3520, 3526), (3558, 3567), (3585, 3632),
  (3634, 3635), (3648, 3654), (3664, 3673), (3713, 3714), (3716, 3716), (3718, 3722),
  (3724, 3747), (3749, 3749), (3751, 3760), (3762, 3763), (3773, 3773), (3776, 3780),
  (3782, 3782), (3792, 3801), (3804, 3807), (3840, 3840), (3872, 3891), (3904, 3911),
  (3913, 3948), (3976, 3980), (4096, 4138), (4159, 4169), (4176, 4181), (4186, 4189),
  (4193, 4193), (4197, 4198), (4206, 4208), (4213, 4225), (4238, 4238), (4240, 4249),
  (4256, 4293), (4295, 4295), (4301, 4301), (4304, 4346), (4348, 4680), (4682, 4685),
  (4688, 4694), (4696, 4696), (4698, 4701), (4704, 4744), (4746, 4749), (4752, 4784),
  (4786, 4789), (4792, 4798), (4800, 4800), (4802, 4805), (4808, 4822), (4824, 4880),
  (4882, 4885), (4888, 4954), (4969, 4988), (4992, 5007), (5024, 5109), (5112, 5117),
  (5121, 5740), (5743, 5759), (5761, 5786), (5792, 5866), (5870, 5880), (5888, 5905),
  (5919, 5937), (5952, 5969), (5984, 5996), (5998, 6000), (6016, 6067), (6103, 6103),
  (6108, 6108), (6112, 6121), (6128, 6137), (6160, 6169), (6176, 6264), (6272, 6276),
  (6279, 6312), (6314, 6314), (6320, 6389), (6400, 6430), (6470, 6509), (6512, 6516),
  (6528, 6571), (6576, 6601), (6608, 6618), (6656, 6678), (6688, 6740), (6784, 6793),
  (6800, 6809), (6823, 6823), (6917, 6963), (6981, 6988), (6992, 7001), (7043, 7072),
  (7086, 7141), (7168, 7203), (7232, 7241), (7245, 7293), (7296, 7304), (7312, 7354),
  (7357, 7359), (7401, 7404), (7406, 7411), (7413, 7414), (7418, 7418), (7424, 7615),
  (7680, 7957), (7960, 7965), (7968, 8005), (8008, 8013), (8016, 8023), (8025, 8025),
  (8027, 8027), (8029, 8029), (8031, 8061), (8064, 8116), (8118, 8124), (8126, 8126),
  (8130, 8132), (8134, 8140), (8144, 8147), (8150, 8155), (8160, 8172), (8178, 8180),
  (8182, 8188), (8304, 8305), (8308, 8313), (8319, 8329), (8336, 8348), (8450, 8450),
  (8455, 8455), (8458, 8467), (8469, 8469), (8473, 8477), (8484, 8484), (8486, 8486),
  (8488, 8488), (8490, 8493), (8495, 8505), (8508, 8511), (8517, 8521), (8526, 8526),
  (8528, 8585), (9312, 9371), (9450, 9471), (10102, 10131), (11264, 11492), (11499, 11502),
  (11506, 11507), (11517, 11517), (11520, 11557), (11559, 11559), (11565, 11565), (11568, 11623),
  (11631, 11631), (11648, 11670), (11680, 11686), (11688, 11694), (11696, 11702), (11704, 11710),
  (11712, 11718), (11720, 11726), (11728, 11734), (11736, 11742), (11823, 11823), (12293, 12295),
  (12321, 12329), (12337, 12341), (12344, 12348), (12353, 12438), (12445, 12447), (12449, 12538),
  (12540, 12543), (12549, 12591), (12593, 12686), (12690, 12693), (12704, 12735), (12784, 12799),
  (12832, 12841), (12872, 12879), (12881, 12895), (12928, 12937), (12977, 12991), (13312, 19903),
  (19968, 42124), (42192, 42237), (42240, 42508), (42512, 42539), (42560, 42606), (42623, 42653),
  (42656, 42735), (42775, 42783), (42786, 42888), (42891, 42954), (42960, 42961), (42963, 42963),
  (42965, 42969), (42994, 43009), (43011, 43013), (43015, 43018), (43020, 43042), (43056, 43061),
  (43072, 43123), (43138, 43187), (43216, 43225), (43250, 43255), (43259, 43259), (43261, 43262),
  (43264, 43301), (43312, 43334), (43360, 43388), (43396, 43442), (43471, 43481), (43488, 43492),
  (43494, 43518), (43520, 43560), (43584, 43586), (43588, 43595), (43600, 43609), (43616, 43638),
  (43642, 43642), (43646, 43695), (43697, 43697), (43701, 43702), (43705, 43709), (43712, 43712),
  (43714, 43714), (43739, 43741), (43744, 43754), (43762, 43764), (43777, 43782), (43785, 43790),
  (43793, 43798), (43808, 43814), (43816, 43822), (43824, 43866), (43868, 43881), (43888, 44002),
  (44016, 44025), (44032, 55203), (55216, 55238), (55243, 55291), (63744, 64109), (64112, 64217),
  (64256, 64262), (64275, 64279), (64285, 64285), (64287, 64296), (64298, 64310), (64312, 64316),
  (64318, 64318), (64320, 64321), (64323, 64324), (64326, 64433), (64467, 64829), (64848, 64911),
  (64914, 64967), (65008, 65019), (65136, 65140), (65142, 65276), (65296, 65305), (65313, 65338),
  (65345, 65370), (65382, 65470), (65474, 65479), (65482, 65487), (65490, 65495), (65498, 65500),
  (65536, 65547), (65549, 65574), (65576, 65594), (65596, 65597), (65599, 65613), (65616, 65629),
  (65664, 65786), (65799, 65843), (65856, 65912), (65930, 65931), (66176, 66204), (66208, 66256),
  (66273, 66299), (66304, 66339), (66349, 66378), (66384, 66421), (66432, 66461), (66464, 66499),
  (66504, 66511), (66513, 66517), (66560, 66717), (66720, 66729), (66736, 66771), (66776, 66811),
  (66816, 66855), (66864, 66915), (66928, 66938), (66940, 66954), (66956, 66962), (66964, 66965),
  (66967, 66977), (66979, 66993), (66995, 67001), (67003, 67004), (67072, 67382), (67392, 67413),
  (67424, 67431), (67456, 67461), (67463, 67504), (67506, 67514), (67584, 67589), (67592, 67592),
  (67594, 67637), (67639, 67640), (67644, 67644), (67647, 67669), (67672, 67702), (67705, 67742),
  (67751, 67759), (67808, 67826), (67828, 67829), (67835, 67867), (67872, 67897), (67968, 68023),
  (68028, 68047), (68050, 68096), (68112, 68115), (68117, 68119), (68121, 68149), (68160, 68168),
  (68192, 68222), (68224, 68255), (68288, 68295), (68297, 68324), (68331, 68335), (68352, 68405),
  (68416, 68437), (68440, 68466), (68472, 68497), (68521, 68527), (68608, 68680), (68736, 68786),
  (68800, 68850), (68858, 68899), (68912, 68921), (69216, 69246), (69248, 69289), (69296, 69297),
  (69376, 69415), (69424, 69445), (69457, 69460), (69488, 69505), (69552, 69579), (69600, 69622),
  (69635, 69687), (69714, 69743), (69745, 69746), (69749, 69749), (69763, 69807), (69840, 69864),
  (69872, 69881), (69891, 69926), (69942, 69951), (69956, 69956), (69959, 69959), (69968, 70002),
  (70006, 70006), (70019, 70066), (70081, 70084), (70096, 70106), (70108, 70108), (70113, 70132),
  (70144, 70161), (70163, 70187), (70272, 70278), (70280, 70280), (70282, 70285), (70287, 70301),
  (70303, 70312), (70320, 70366), (70384, 70393), (70405, 70412), (70415, 70416), (70419, 70440),
  (70442, 70448), (70450, 70451), (70453, 70457), (70461, 70461), (70480, 70480), (70493, 70497),
  (70656, 70708), (70727, 70730), (70736, 70745), (70751, 70753), (70784, 70831), (70852, 70853),
  (70855, 70855), (70864, 70873), (71040, 71086), (71128, 71131), (71168, 71215), (71236, 71236),
  (71248, 71257), (71296, 71338), (71352, 71352), (71360, 71369), (71424, 71450), (71472, 71483),
  (71488, 71494), (71680, 71723), (71840, 71922), (71935, 71942), (71945, 71945), (71948, 71955),
  (71957, 71958), (71960, 71983), (71999, 71999), (72001, 72001), (72016, 72025), (72096, 72103),
  (72106, 72144), (72161, 72161), (72163, 72163), (72192, 72192), (72203, 72242), (72250, 72250),
  (72272, 72272), (72284, 72329), (72349, 72349), (72368, 72440), (72704, 72712), (72714, 72750),
  (72768, 72768), (72784, 72812), (72818, 72847), (72960, 72966), (72968, 72969), (72971, 73008),
  (73030, 73030), (73040, 73049), (73056, 73061), (73063, 73064), (73066, 73097), (73112, 73112),
  (73120, 73129), (73440, 73458), (73648, 73648), (73664, 73684), (73728, 74649), (74752, 74862),
  (74880, 75075), (77712, 77808), (77824, 78894), (82944, 83526), (92160, 92728), (92736, 92766),
  (92768, 92777), (92784, 92862), (92864, 92873), (92880, 92909), (92928, 92975), (92992, 92995),
  (93008, 93017), (93019, 93025), (93027, 93047), (93053, 93071), (93760, 93846), (93952, 94026),
  (94032, 94032), (94099, 94111), (94176, 94177), (94179, 94179), (94208, 100343), (100352, 101589),
  (101632, 101640), (110576, 110579), (110581, 110587), (110589, 110590), (110592, 110882), (110928, 110930),
  (110948, 110951), (110960, 111355), (113664, 113770), (113776, 113788), (113792, 113800), (113808, 113817),
  (119520, 119539), (119648, 119672), (119808, 119892), (119894, 119964), (119966, 119967), (119970, 119970),
  (119973, 119974), (119977, 119980), (119982, 119993), (119995, 119995), (119997, 120003), (120005, 120069),
  (120071, 120074), (120077, 120084), (120086, 120092), (120094, 120121), (120123, 120126), (120128, 120132),
  (120134, 120134), (120138, 120144), (120146, 120485), (120488, 120512), (120514, 120538), (120540, 120570),
  (120572, 120596), (120598, 120628), (120630, 120654), (120656, 120686), (120688, 120712), (120714, 120744),
  (120746, 120770), (120772, 120779), (120782, 120831), (122624, 122654), (123136, 123180), (123191, 123197),
  (123200, 123209), (123214, 123214), (123536, 123565), (123584, 123627), (123632, 123641), (124896, 124902),
  (124904, 124907), (124909, 124910), (124912, 124926), (124928, 125124), (125127, 125135), (125184, 125251),
  (125259, 125259), (125264, 125273), (126065, 126123), (126125, 126127), (126129, 126132), (126209, 126253),
  (126255, 126269), (126464, 126467), (126469, 126495), (126497, 126498), (126500, 126500), (126503, 126503),
  (126505, 126514), (126516, 126519), (126521, 126521), (126523, 126523), (126530, 126530), (126535, 126535),
  (126537, 126537), (126539, 126539), (126541, 126543), (126545, 126546), (126548, 126548), (126551, 126551),
  (126553, 126553), (126555, 126555), (126557, 126557), (126559, 126559), (126561, 126562), (126564, 126564),
  (126567, 126570), (126572, 126578), (126580, 126583), (126585, 126588), (126590, 126590), (126592, 126601),
  (126603, 126619), (126625, 126627), (126629, 126633), (126635, 126651), (127232, 127244), (130032, 130041),
  (131072, 173791), (173824, 177976), (177984, 178205), (178208, 183969), (183984, 191456), (194560, 195101),
  (196608, 201546)]

/-- Membership of a codepoint in an ascending list of inclusive ranges,
returning early once the remaining ranges all start above it. -/
def inRanges (n : Nat) : List (Nat × Nat) → Bool
  | [] => false
  | r :: rs => if n < r.1 then false else if n ≤ r.2 then true else inRanges n rs

/-- Character class of the word regex `[\pL\pN+*_#-]+` from
`RE_MATCH_WORDS`: a Unicode letter (`\pL`), a Unicode number (`\pN`),
or one of the five listed symbols. -/
def isWordChar (c : Char) : Bool :=
  c = '+' || c = '*' || c = '_' || c = '#' || c = '-' ||
    inRanges c.toNat unicodeLetterNumberRanges

/-- Scanner for `RE_MATCH_WORDS.find_iter`: collects maximal runs of
`isWordChar` characters, dropping all other characters.  `acc` holds the
(reversed) run currently being read. -/
def tokenizeGo : List Char → List Char → List (List Char)
  | [], acc => if acc = [] then [] else [acc.reverse]
  | c :: cs, acc =>
    if isWordChar c then tokenizeGo cs (c :: acc)
    else if acc = [] then tokenizeGo cs []
    else acc.reverse :: tokenizeGo cs []

/-- `fn tokenize(text: &str) -> Vec<&str>`: all matches of
`[\pL\pN+*_#-]+` in `text`, in order. -/
def tokenize (s : String) : List String :=
  (tokenizeGo s.toList []).map List.asString

/-- Value of a hexadecimal digit, as accepted by
`u32::from_str_radix(_, 16)` (via `char::to_digit(16)`). -/
def hexVal? (c : Char) : Option Nat :=
  if '0' ≤ c ∧ c ≤ '9' then some (c.toNat - '0'.toNat)
  else if 'a' ≤ c ∧ c ≤ 'f' then some (c.toNat - 'a'.toNat + 10)
  else if 'A' ≤ c ∧ c ≤ 'F' then some (c.toNat - 'A'.toNat + 10)
  else none

/-- `List.mapM` over `Option`, written out structurally so that it
evaluates in the kernel. -/
def mapMOpt (f : α → Option β) : List α → Option (List β)
  | [] => some []
  | a :: as => (f a).bind fun b => (mapMOpt f as).map (b :: ·)

/-- `u32::from_str_radix(s, 16)`: an optional leading `+`, then at least
one hexadecimal digit; errors on any other character, on an empty digit
string, and on overflow past `u32::MAX`. -/
def fromStrRadix16 (s : List Char) : Option Nat :=
  let digits := if s.head? = some '+' then s.tail else s
  if digits = [] then none
  else
    match mapMOpt hexVal? digits with
    | none => none
    | some ds =>
      let v := ds.foldl (fun a d => a * 16 + d) 0
      if v < 2 ^ 32 then some v else none

/-- One entry of the Linguist dataset (`struct LinguistLang`): an
optional color hex string, plus extension and alias strings. -/
structure LinguistLang where
  color : Option String
  extensions : List String
  aliases : List String
deriving DecidableEq, Repr

/-- `Linguist` is a `HashMap<String, LinguistLang>`, modelled as an
association list with (by the `HashMap` invariant) no duplicate keys.
Iteration order of the hash map is arbitrary, which is why determinism
statements below quantify over permutations. -/
abbrev Linguist := List (String × LinguistLang)

/-- `HashMap::insert` on the association-list model: replace the value
at an existing key, or append a fresh binding. -/
def insertReplace (m : List (String × LinguistLang)) (k : String) (v : LinguistLang) :
    List (String × LinguistLang) :=
  match m with
  | [] => [(k, v)]
  | (k', v') :: rest =>
    if k' = k then (k, v) :: rest else (k', v') :: insertReplace rest k v

/-- `String::to_ascii_lowercase`: lower-case every character through
the ASCII-only `Char.toLower`, written structurally over the character
list so that it evaluates in the kernel. -/
def toAsciiLower (s : String) : String :=
  ⟨s.data.map Char.toLower⟩

/-- `impl Deserialize for Linguist`: deserialize the raw map, lowercase
every canonical name (`to_ascii_lowercase`), and collect into a
`HashMap`. -/
def Linguist.deserialize (raw : List (String × LinguistLang)) : Linguist :=
  (raw.map (fun p => (toAsciiLower p.1, p.2))).foldl (fun m p => insertReplace m p.1 p.2) []

/-- The per-entry color computation in `Linguist::colors`:
`lang.color.as_ref().and_then(|c| u32::from_str_radix(&c[1..], 16).ok())`.
The outer `Option` is the panic monad: `&c[1..]` panics when `c` is
empty (out of bounds) or when byte offset 1 is not a character boundary,
i.e. when the first character of `c` occupies more than one byte. -/
def entryColor (lang : LinguistLang) : Option (Option Nat) :=
  match lang.color with
  | none => some none
  | some c =>
    match c.toList with
    | [] => none
    | ch :: rest => if ch.utf8Size = 1 then some (fromStrRadix16 rest) else none

/-- `ColorMap<'a>` is a `HashMap<Cow<str>, Vec<(Cow<str>, u32)>>`,
modelled as an association list from token to bucket. -/
abbrev ColorMap := List (String × List (String × Nat))

/-- `HashMap::get` on the association-list model. -/
def lookup? (m : List (String × β)) (k : String) : Option β :=
  match m with
  | [] => none
  | p :: rest => if p.1 = k then some p.2 else lookup? rest k

/-- `map.entry(word).or_default().push((name, color))`. -/
def mapPush (m : ColorMap) (word : String) (p : String × Nat) : ColorMap :=
  match m with
  | [] => [(word, [p])]
  | (w, ps) :: rest =>
    if w = word then (w, ps ++ [p]) :: rest else (w, ps) :: mapPush rest word p

/-- The keyword iterator of one entry in `Linguist::colors`:
`once(name).chain(aliases).chain(extensions)`. -/
def entryKeywords (name : String) (lang : LinguistLang) : List String :=
  name :: (lang.aliases ++ lang.extensions)

/-- `List.flatMap`, written out structurally. -/
def flatMapL (f : α → List β) : List α → List β
  | [] => []
  | a :: as => f a ++ flatMapL f as

/-- All tokens contributed by one entry (tokens of its name, aliases and
extensions, concatenated in iteration order). -/
def entryTokens (name : String) (lang : LinguistLang) : List String :=
  flatMapL tokenize (entryKeywords name lang)

/-- The inner double loop of `Linguist::colors` for a single entry:
push `(name, color)` into the bucket of every token of every keyword. -/
def addEntry (m : ColorMap) (name : String) (lang : LinguistLang) (color : Nat) : ColorMap :=
  (entryKeywords name lang).foldl
    (fun m kw => (tokenize kw).foldl (fun m word => mapPush m word (name, color)) m) m

/-- `Linguist::colors`: first compute the parsed color of every entry
(the `colors` vector — this is where `&c[1..]` may panic), then fold all
entries with a successfully parsed color into the index.  The Rust
function returns `anyhow::Result` but its only return is `Ok(...)`, so
the sole failure mode is a panic, modelled by the outer `Option`. -/
def Linguist.colors (l : Linguist) : Option ColorMap :=
  (mapMOpt (fun p => entryColor p.2) l).map (fun cs =>
    (l.zip cs).foldl
      (fun m pc =>
        match pc.2 with
        | none => m
        | some color => addEntry m pc.1.1 pc.1.2 color) [])

/-- `Color::from_num(color).unwrap()` in `ColorMap::query`:
`color_art::Color::from_num` errors for values above `0xFFFFFF`, and the
`unwrap` turns that into a panic (`none`).  The resulting `TermColor` is
identified with its 24-bit value. -/
def fromNum (n : Nat) : Option Nat :=
  if n ≤ 0xFFFFFF then some n else none

/-- The bucket of a token: `self.0.get(word)` flattened, i.e. a missing
token contributes the empty bucket. -/
def bucketOf (m : ColorMap) (w : String) : List (String × Nat) :=
  (lookup? m w).getD []

/-- The `(name, color)` pairs visited by `ColorMap::query`:
`tokenize(query).flat_map(|word| self.0.get(word)).flatten()`. -/
def queryPairs (m : ColorMap) (q : String) : List (String × Nat) :=
  flatMapL (fun w => bucketOf m w) (tokenize q)

/-- `BTreeMap` insertion on a key-sorted association list: keeps the
list strictly sorted by key and replaces the value at an existing key
(so a later insertion of the same key overwrites the earlier one). -/
def btInsert (m : List (String × Nat)) (k : String) (v : Nat) : List (String × Nat) :=
  match m with
  | [] => [(k, v)]
  | (k', v') :: rest =>
    if k < k' then (k, v) :: (k', v') :: rest
    else if k = k' then (k, v) :: rest
    else (k', v') :: btInsert rest k v

/-- `ColorMap::query`: visit the pairs of all buckets of all query
tokens, convert each stored `u32` back to a color (panicking — `none` —
on values above `0xFFFFFF`), and collect into a `BTreeMap` keyed by
canonical name. -/
def ColorMap.query (m : ColorMap) (q : String) : Option (List (String × Nat)) :=
  (mapMOpt (fun p => (fromNum p.2).map (fun v => (p.1, v))) (queryPairs m q)).map
    (fun ps => ps.foldl (fun bt p => btInsert bt p.1 p.2) [])

/-- `static XTERM_COLORS`: the fixed 256-color xterm palette, each entry
identified with its 24-bit RGB value (the source builds `Color`s from
exactly these numbers). -/
def XTERM_COLORS : List Nat := [
  0x000000, 0x800000, 0x008000, 0x808000, 0x000080, 0x800080, 0x008080, 0xc0c0c0, 0x808080,
  0xff0000, 0x00ff00, 0xffff00, 0x0000ff, 0xff00ff, 0x00ffff, 0xffffff, 0x000000, 0x00005f,
  0x000087, 0x0000af, 0x0000d7, 0x0000ff, 0x005f00, 0x005f5f, 0x005f87, 0x005faf, 0x005fd7,
  0x005fff, 0x008700, 0x00875f, 0x008787, 0x0087af, 0x0087d7, 0x0087ff, 0x00af00, 0x00af5f,
  0x00af87, 0x00afaf, 0x00afd7, 0x00afff, 0x00d700, 0x00d75f, 0x00d787, 0x00d7af, 0x00d7d7,
  0x00d7ff, 0x00ff00, 0x00ff5f, 0x00ff87, 0x00ffaf, 0x00ffd7, 0x00ffff, 0x5f0000, 0x5f005f,
  0x5f0087, 0x5f00af, 0x5f00d7, 0x5f00ff, 0x5f5f00, 0x5f5f5f, 0x5f5f87, 0x5f5faf, 0x5f5fd7,
  0x5f5fff, 0x5f8700, 0x5f875f, 0x5f8787, 0x5f87af, 0x5f87d7, 0x5f87ff, 0x5faf00, 0x5faf5f,
  0x5faf87, 0x5fafaf, 0x5fafd7, 0x5fafff, 0x5fd700, 0x5fd75f, 0x5fd787, 0x5fd7af, 0x5fd7d7,
  0x5fd7ff, 0x5fff00, 0x5fff5f, 0x5fff87, 0x5fffaf, 0x5fffd7, 0x5fffff, 0x870000, 0x87005f,
  0x870087, 0x8700af, 0x8700d7, 0x8700ff, 0x875f00, 0x875f5f, 0x875f87, 0x875faf, 0x875fd7,
  0x875fff, 0x878700, 0x87875f, 0x878787, 0x8787af, 0x8787d7, 0x8787ff, 0x87af00, 0x87af5f,
  0x87af87, 0x87afaf, 0x87afd7, 0x87afff, 0x87d700, 0x87d75f, 0x87d787, 0x87d7af, 0x87d7d7,
  0x87d7ff, 0x87ff00, 0x87ff5f, 0x87ff87, 0x87ffaf, 0x87ffd7, 0x87ffff, 0xaf0000, 0xaf005f,
  0xaf0087, 0xaf00af, 0xaf00d7, 0xaf00ff, 0xaf5f00, 0xaf5f5f, 0xaf5f87, 0xaf5faf, 0xaf5fd7,
  0xaf5fff, 0xaf8700, 0xaf875f, 0xaf8787, 0xaf87af, 0xaf87d7, 0xaf87ff, 0xafaf00, 0xafaf5f,
  0xafaf87, 0xafafaf, 0xafafd7, 0xafafff, 0xafd700, 0xafd75f, 0xafd787, 0xafd7af, 0xafd7d7,
  0xafd7ff, 0xafff00, 0xafff5f, 0xafff87, 0xafffaf, 0xafffd7, 0xafffff, 0xd70000, 0xd7005f,
  0xd70087, 0xd700af, 0xd700d7, 0xd700ff, 0xd75f00, 0xd75f5f, 0xd75f87, 0xd75faf, 0xd75fd7,
  0xd75fff, 0xd78700, 0xd7875f, 0xd78787, 0xd787af, 0xd787d7, 0xd787ff, 0xd7af00, 0xd7af5f,
  0xd7af87, 0xd7afaf, 0xd7afd7, 0xd7afff, 0xd7d700, 0xd7d75f, 0xd7d787, 0xd7d7af, 0xd7d7d7,
  0xd7d7ff, 0xd7ff00, 0xd7ff5f, 0xd7ff87, 0xd7ffaf, 0xd7ffd7, 0xd7ffff, 0xff0000, 0xff005f,
  0xff0087, 0xff00af, 0xff00d7, 0xff00ff, 0xff5f00, 0xff5f5f, 0xff5f87, 0xff5faf, 0xff5fd7,
  0xff5fff, 0xff8700, 0xff875f, 0xff8787, 0xff87af, 0xff87d7, 0xff87ff, 0xffaf00, 0xffaf5f,
  0xffaf87, 0xffafaf, 0xffafd7, 0xffafff, 0xffd700, 0xffd75f, 0xffd787, 0xffd7af, 0xffd7d7,
  0xffd7ff, 0xffff00, 0xffff5f, 0xffff87, 0xffffaf, 0xffffd7, 0xffffff, 0x080808, 0x121212,
  0x1c1c1c, 0x262626, 0x303030, 0x3a3a3a, 0x444444, 0x4e4e4e, 0x585858, 0x626262, 0x6c6c6c,
  0x767676, 0x808080, 0x8a8a8a, 0x949494, 0x9e9e9e, 0xa8a8a8, 0xb2b2b2, 0xbcbcbc, 0xc6c6c6,
  0xd0d0d0, 0xdadada, 0xe4e4e4, 0xeeeeee]

/-- `Iterator::enumerate`, starting from index `n`. -/
def enumL (n : Nat) : List α → List (Nat × α)
  | [] => []
  | a :: as => (n, a) :: enumL (n + 1) as

/-- `fn find_nearest_color`: pair every choice with its distance to
`color`, enumerate, and take `min_by` on the distance — Rust's `min_by`
keeps the first of several equal minima (`cmp::min_by` keeps its first
argument unless the comparison is `Greater`).  The distance type is any
linear order; the source compares `f64` distances with
`partial_cmp(..).unwrap()`, which is exactly a total comparison on the
non-NaN values the metrics produce. -/
def find_nearest_color {α : Type} [LinearOrder α]
    (color : Nat) (choices : List Nat) (dist : Nat → Nat → α) : Option (Nat × Nat) :=
  match enumL 0 (choices.map (fun c => (c, dist c color))) with
  | [] => none
  | x :: xs =>
    let r := xs.foldl (fun acc y => if y.2.2 < acc.2.2 then y else acc) x
    some (r.1, r.2.1)

/-- `|x - y|` on `Nat`. -/
def natAbsDiff (x y : Nat) : Nat := (x - y) + (y - x)

/-- Modelled from the spec: "plain RGB Euclidean distance" — the
`color_art` crate implementing `distance_with` is an external dependency
not present in the sources, so the RGB metric is modelled from the
spec's words.  The squared Euclidean distance on the three 8-bit
channels is used: it is `Nat`-valued, has the same comparison order as
the Euclidean distance, and is zero exactly where the Euclidean distance
is zero. -/
def rgbDistSq (a b : Nat) : Nat :=
  natAbsDiff (a / 65536 % 256) (b / 65536 % 256) ^ 2 +
    natAbsDiff (a / 256 % 256) (b / 256 % 256) ^ 2 +
    natAbsDiff (a % 256) (b % 256) ^ 2

/-- One step of Rust's `Iterator::min_by` as used in
`find_nearest_color`: `cmp::min_by` keeps the accumulator unless the new
element is strictly smaller. -/
def minStep {α : Type} [LinearOrder α] (acc y : Nat × Nat × α) : Nat × Nat × α :=
  if y.2.2 < acc.2.2 then y else acc

/-- The first character of `cs`, if any, is not a word character. -/
def headNotWord (cs : List Char) : Prop :=
  ∀ d, cs.head? = some d → isWordChar d = false

/-- `RunsDecomp l ts` says `ts` is the decomposition of `l` into its
maximal runs of word characters, with every other character dropped as a
separator: runs are non-empty, consist of word characters only, and
cannot be extended (the character after a run, if any, is a separator;
the character before it is a separator or the start of the text, which
holds because `tok` can never directly follow a run). -/
inductive RunsDecomp : List Char → List (List Char) → Prop
  | stop : RunsDecomp [] []
  | skip (c : Char) (cs : List Char) (ts : List (List Char)) (h : isWordChar c = false)
      (ih : RunsDecomp cs ts) : RunsDecomp (c :: cs) ts
  | tok (t cs : List Char) (ts : List (List Char)) (hne : t ≠ [])
      (hall : ∀ d ∈ t, isWordChar d = true) (hnext : headNotWord cs)
      (ih : RunsDecomp cs ts) : RunsDecomp (t ++ cs) (t :: ts)

/-- The value of the **last** pair with a given name in a pair sequence
(the `BTreeMap` overwrite semantics). -/
def lastVal (ps : List (String × Nat)) (n : String) : Option Nat :=
  ps.foldl (fun acc p => if p.1 = n then some p.2 else acc) none


/-- Shape predicate for C10: a color string that is `#` followed by at
most six hexadecimal digits. -/
def hexShape (c : String) : Bool :=
  match c.toList with
  | '#' :: ds => decide (ds.length ≤ 6) && ds.all (fun d => (hexVal? d).isSome)
  | _ => false

/-- The first character of the string exists and occupies one byte, so
that the byte slice `&c[1..]` cannot panic. -/
def headOneByte (c : String) : Bool :=
  match c.toList with
  | [] => false
  | ch :: _ => ch.utf8Size == 1

/-- Replace the color of an entry whose color string fails to parse as
hexadecimal by no color at all (used to state that `Linguist::colors`
treats the two identically). -/
def dropUnparsed (p : String × LinguistLang) : String × LinguistLang :=
  if entryColor p.2 = some none then (p.1, { p.2 with color := none }) else p


/-! ## Generic list lemmas -/

theorem get?_eq_some_getD {l : List Nat} {n : Nat} (h : n < l.length) :
    l.get? n = some (l.getD n 0) := by
  induction l generalizing n with
  | nil => simp at h
  | cons a as ih =>
    cases n with
    | zero => rfl
    | succ n => simpa using ih (by simpa using h)

theorem mem_of_get?_eq_some {l : List α} {n : Nat} {a : α} (h : l.get? n = some a) :
    a ∈ l := by
  induction l generalizing n with
  | nil => simp [List.get?] at h
  | cons b bs ih =>
    cases n with
    | zero =>
      simp only [List.get?] at h
      injection h with h
      subst h
      exact List.mem_cons_self _ _
    | succ n => exact List.mem_cons_of_mem _ (ih h)

theorem mem_enumL {l : List α} {n : Nat} {p : Nat × α} :
    p ∈ enumL n l ↔ ∃ k, p.1 = n + k ∧ l.get? k = some p.2 := by
  induction l generalizing n with
  | nil => simp [enumL]
  | cons a as ih =>
    simp only [enumL, List.mem_cons, ih]
    constructor
    · rintro (rfl | ⟨k, hk, hget⟩)
      · exact ⟨0, by simp⟩
      · exact ⟨k + 1, by omega, by simpa using hget⟩
    · rintro ⟨k, hk, hget⟩
      cases k with
      | zero =>
        left
        obtain ⟨p1, p2⟩ := p
        simp only [List.get?] at hget
        simp_all
      | succ k => exact Or.inr ⟨k, by omega, by simpa using hget⟩

theorem le_idx_of_mem_enumL : ∀ {l : List α} {n : Nat} {p : Nat × α},
    p ∈ enumL n l → n ≤ p.1 := by
  intro l
  induction l with
  | nil => intro n p h; simp [enumL] at h
  | cons a as ih =>
    intro n p h
    rcases List.mem_cons.1 h with rfl | h
    · exact Nat.le_refl _
    · exact Nat.le_of_succ_le (ih h)

theorem pairwise_enumL : ∀ (l : List α) (n : Nat),
    (enumL n l).Pairwise (fun a b => a.1 < b.1) := by
  intro l
  induction l with
  | nil => intro n; simp [enumL]
  | cons a as ih =>
    intro n
    refine List.Pairwise.cons ?_ (ih (n + 1))
    intro p hp
    exact Nat.lt_of_succ_le (le_idx_of_mem_enumL hp)

/-! ## The `min_by` fold -/

theorem foldl_minStep_spec {α : Type} [LinearOrder α] :
    ∀ (xs : List (Nat × Nat × α)) (x : Nat × Nat × α),
      (x :: xs).Pairwise (fun a b => a.1 < b.1) →
      xs.foldl minStep x ∈ x :: xs ∧
      (∀ y ∈ x :: xs, (xs.foldl minStep x).2.2 ≤ y.2.2) ∧
      (∀ y ∈ x :: xs, y.1 < (xs.foldl minStep x).1 → (xs.foldl minStep x).2.2 < y.2.2) := by
  intro xs
  induction xs with
  | nil =>
    intro x _
    refine ⟨List.mem_cons_self _ _, ?_, ?_⟩
    · intro y hy
      rcases List.mem_cons.1 hy with rfl | h
      · exact le_refl _
      · simp at h
    · intro y hy hlt
      rcases List.mem_cons.1 hy with rfl | h
      · exact absurd hlt (lt_irrefl _)
      · simp at h
  | cons y ys ih =>
    intro x hpw
    rcases List.pairwise_cons.1 hpw with ⟨hx, hpw1⟩
    rcases List.pairwise_cons.1 hpw1 with ⟨hy, hpw2⟩
    have hxy : x.1 < y.1 := hx y (List.mem_cons_self _ _)
    have hpw' : (minStep x y :: ys).Pairwise (fun a b => a.1 < b.1) := by
      refine List.pairwise_cons.2 ⟨?_, hpw2⟩
      intro b hb
      unfold minStep
      split
      · exact hy b hb
      · exact hx b (List.mem_cons_of_mem _ hb)
    obtain ⟨hmem, hmin, hfirst⟩ := ih (minStep x y) hpw'
    have hfold : (y :: ys).foldl minStep x = ys.foldl minStep (minStep x y) := rfl
    rw [hfold]
    set r := ys.foldl minStep (minStep x y) with hr
    have hmem_xy : minStep x y = x ∨ minStep x y = y := by
      unfold minStep; split
      · exact Or.inr rfl
      · exact Or.inl rfl
    have hms_le_x : (minStep x y).2.2 ≤ x.2.2 := by
      unfold minStep; split
      · exact le_of_lt (by assumption)
      · exact le_refl _
    have hms_le_y : (minStep x y).2.2 ≤ y.2.2 := by
      unfold minStep; split
      · exact le_refl _
      · exact le_of_not_lt (by assumption)
    have hr_le_ms : r.2.2 ≤ (minStep x y).2.2 := hmin _ (List.mem_cons_self _ _)
    refine ⟨?_, ?_, ?_⟩
    · rcases List.mem_cons.1 hmem with hre | hre
      · rcases hmem_xy with hms | hms
        · rw [hre, hms]; exact List.mem_cons_self _ _
        · rw [hre, hms]; exact List.mem_cons_of_mem _ (List.mem_cons_self _ _)
      · exact List.mem_cons_of_mem _ (List.mem_cons_of_mem _ hre)
    · intro z hz
      rcases List.mem_cons.1 hz with hze | hz1
      · rw [hze]; exact le_trans hr_le_ms hms_le_x
      rcases List.mem_cons.1 hz1 with hze | hz2
      · rw [hze]; exact le_trans hr_le_ms hms_le_y
      · exact hmin z (List.mem_cons_of_mem _ hz2)
    · intro z hz hzlt
      rcases List.mem_cons.1 hz with hze | hz1
      · -- z = x
        rw [hze] at hzlt ⊢
        by_cases hlt : y.2.2 < x.2.2
        · have hms : minStep x y = y := by unfold minStep; simp [hlt]
          refine lt_of_le_of_lt ?_ hlt
          rw [← hms]; exact hr_le_ms
        · -- minStep x y = x, and x.1 < r.1 means the first minimum beats x
          have hms : minStep x y = x := by unfold minStep; simp [hlt]
          have := hfirst (minStep x y) (List.mem_cons_self _ _) (by rw [hms]; exact hzlt)
          rwa [hms] at this
      rcases List.mem_cons.1 hz1 with hze | hz2
      · -- z = y
        rw [hze] at hzlt ⊢
        by_cases hlt : y.2.2 < x.2.2
        · have hms : minStep x y = y := by unfold minStep; simp [hlt]
          have := hfirst (minStep x y) (List.mem_cons_self _ _) (by rw [hms]; exact hzlt)
          rwa [hms] at this
        · -- minStep x y = x; either r is x itself or r lies in ys
          have hms : minStep x y = x := by unfold minStep; simp [hlt]
          have hxle : x.2.2 ≤ y.2.2 := le_of_not_lt hlt
          rcases List.mem_cons.1 hmem with hre | hre
          · -- r = minStep x y = x, but y.1 < r.1 = x.1 contradicts x.1 < y.1
            rw [hre, hms] at hzlt
            exact absurd hzlt (Nat.lt_asymm hxy)
          · -- r ∈ ys, so x.1 < r.1 and first-minimality beats x
            have hxr : x.1 < r.1 := hx r (List.mem_cons_of_mem _ hre)
            have := hfirst (minStep x y) (List.mem_cons_self _ _) (by rw [hms]; exact hxr)
            rw [hms] at this
            exact lt_of_lt_of_le this hxle
      · exact hfirst z (List.mem_cons_of_mem _ hz2) hzlt

/-- The full specification of `find_nearest_color` on a non-empty list
of choices: it returns the choice with minimal distance, at the first
index achieving that minimum. -/
theorem find_nearest_spec {α : Type} [LinearOrder α] (dist : Nat → Nat → α) (q : Nat)
    (choices : List Nat) (h : choices ≠ []) :
    ∃ i c, find_nearest_color q choices dist = some (i, c) ∧
      choices.get? i = some c ∧
      (∀ j cj, choices.get? j = some cj → dist c q ≤ dist cj q) ∧
      (∀ j cj, j < i → choices.get? j = some cj → dist c q < dist cj q) := by
  obtain ⟨a, as, rfl⟩ : ∃ a as, choices = a :: as := by
    cases choices with
    | nil => exact absurd rfl h
    | cons a as => exact ⟨a, as, rfl⟩
  set f : Nat → Nat × α := fun c => (c, dist c q) with hf
  have hL : enumL 0 ((a :: as).map f) = (0, f a) :: enumL 1 (as.map f) := rfl
  have hpw : ((0, f a) :: enumL 1 (as.map f)).Pairwise (fun p r => p.1 < r.1) := by
    have := pairwise_enumL ((a :: as).map f) 0
    rwa [hL] at this
  obtain ⟨hmem, hmin, hfirst⟩ := foldl_minStep_spec (enumL 1 (as.map f)) (0, f a) hpw
  set r := (enumL 1 (as.map f)).foldl minStep (0, f a) with hr
  have hfind : find_nearest_color q (a :: as) dist = some (r.1, r.2.1) := rfl
  have hrL : r ∈ enumL 0 ((a :: as).map f) := by rw [hL]; exact hmem
  obtain ⟨k, hk, hget⟩ := mem_enumL.1 hrL
  have hk0 : r.1 = k := by omega
  have hget2 : ((a :: as).get? k).map f = some r.2 := by
    rw [← List.get?_map]; exact hget
  obtain ⟨c0, hc, hfc⟩ : ∃ c0, (a :: as).get? k = some c0 ∧ f c0 = r.2 := by
    cases hc : (a :: as).get? k with
    | none => rw [hc] at hget2; simp at hget2
    | some c0 =>
      rw [hc] at hget2
      simp only [Option.map_some'] at hget2
      injection hget2 with hget2
      exact ⟨c0, rfl, hget2⟩
  have hc0 : c0 = r.2.1 := by rw [← hfc]
  have hd : dist r.2.1 q = r.2.2 := by
    rw [← hc0, show dist c0 q = (f c0).2 from rfl, hfc]
  have hyin : ∀ j cj, (a :: as).get? j = some cj → (j, f cj) ∈ (0, f a) :: enumL 1 (as.map f) := by
    intro j cj hj
    rw [← hL]
    refine mem_enumL.2 ⟨j, by omega, ?_⟩
    rw [List.get?_map, hj]; rfl
  refine ⟨r.1, r.2.1, hfind, ?_, ?_, ?_⟩
  · rw [hk0, hc, hc0]
  · intro j cj hj
    have := hmin _ (hyin j cj hj)
    rw [hd]
    exact this
  · intro j cj hjlt hj
    have := hfirst _ (hyin j cj hj) (by simpa using hjlt)
    rw [hd]
    exact this

/-! ## Claim C1 -/

/-- C1: for every non-empty list of choices and every query color, when
two or more choices are exactly equidistant (minimal) from the query
under the chosen metric, `find_nearest_color` returns the first minimal
element in iteration order: the returned index `i` holds a choice of
minimal distance, and every strictly earlier index has strictly larger
distance (so on ties the lower index wins). -/
theorem nearest_returns_first_minimal {α : Type} [LinearOrder α] (dist : Nat → Nat → α)
    (q : Nat) (choices : List Nat) (h : choices ≠ []) :
    ∃ i c, find_nearest_color q choices dist = some (i, c) ∧
      choices.get? i = some c ∧
      (∀ j cj, choices.get? j = some cj → dist c q ≤ dist cj q) ∧
      (∀ j cj, j < i → choices.get? j = some cj → dist c q < dist cj q) :=
  find_nearest_spec dist q choices h

/-- Witness for C1 at a concrete input with an exact tie: both entries
of `[5, 5]` are equidistant from the query `5`. -/
theorem nearest_returns_first_minimal_witness :
    ∃ i c, find_nearest_color 5 [5, 5] natAbsDiff = some (i, c) ∧
      [5, 5].get? i = some c ∧
      (∀ j cj, [5, 5].get? j = some cj → natAbsDiff c 5 ≤ natAbsDiff cj 5) ∧
      (∀ j cj, j < i → [5, 5].get? j = some cj → natAbsDiff c 5 < natAbsDiff cj 5) :=
  nearest_returns_first_minimal natAbsDiff 5 [5, 5] (by decide)

/-! ## Claim C5 -/

/-- C5 (corrected): querying a palette entry's color against the palette
returns that color (hence distance 0) at the **first** palette index
holding that color — which is the entry's own index only when no earlier
slot holds the same color.  Stated for any metric that is zero on equal
arguments, non-negative, and definite on the palette. -/
theorem nearest_palette_entry_first_index {α : Type} [LinearOrder α] [Zero α]
    (dist : Nat → Nat → α) (j : Nat) (hj : j < XTERM_COLORS.length)
    (h0 : ∀ a, dist a a = 0)
    (hnn : ∀ a b, (0 : α) ≤ dist a b)
    (hdef : ∀ c ∈ XTERM_COLORS, dist c (XTERM_COLORS.getD j 0) = 0 → c = XTERM_COLORS.getD j 0) :
    ∃ i, find_nearest_color (XTERM_COLORS.getD j 0) XTERM_COLORS dist
        = some (i, XTERM_COLORS.getD j 0) ∧
      XTERM_COLORS.get? i = some (XTERM_COLORS.getD j 0) ∧
      (∀ j', j' < i → XTERM_COLORS.get? j' ≠ some (XTERM_COLORS.getD j 0)) ∧
      dist (XTERM_COLORS.getD j 0) (XTERM_COLORS.getD j 0) = 0 := by
  set p := XTERM_COLORS.getD j 0 with hp
  obtain ⟨i, c, hfind, hget, hmin, hfirst⟩ :=
    find_nearest_spec dist p XTERM_COLORS (by decide)
  have hqj : XTERM_COLORS.get? j = some p := get?_eq_some_getD hj
  have hc0 : dist c p = 0 := by
    have h1 : dist c p ≤ dist p p := hmin j p hqj
    rw [h0 p] at h1
    exact le_antisymm h1 (hnn c p)
  have hcp : c = p := hdef c (mem_of_get?_eq_some hget) hc0
  subst hcp
  refine ⟨i, hfind, hget, ?_, h0 p⟩
  intro j' hj' hq'
  have := hfirst j' p hj' hq'
  rw [hc0] at this
  exact absurd this (lt_irrefl _)

/-- Witness for C5 at a concrete input: palette entry 180 (`0xdfaf87`,
the color from the crate's own doc example) queried against the palette
under the (spec-modelled) squared RGB Euclidean metric. -/
theorem nearest_palette_entry_first_index_witness :
    ∃ i, find_nearest_color (XTERM_COLORS.getD 180 0) XTERM_COLORS rgbDistSq
        = some (i, XTERM_COLORS.getD 180 0) ∧
      XTERM_COLORS.get? i = some (XTERM_COLORS.getD 180 0) ∧
      (∀ j', j' < i → XTERM_COLORS.get? j' ≠ some (XTERM_COLORS.getD 180 0)) ∧
      rgbDistSq (XTERM_COLORS.getD 180 0) (XTERM_COLORS.getD 180 0) = 0 :=
  nearest_palette_entry_first_index rgbDistSq 180 (by decide)
    (fun a => by simp [rgbDistSq, natAbsDiff])
    (fun a b => Nat.zero_le _)
    (by decide)

/-- C5 counterexample: the xterm palette repeats colors.  Entry 16 is
`0x000000`, the same color as entry 0, so querying entry 16's color
returns palette index 0, not 16: the search does **not** return "the
index of that palette entry itself". -/
theorem nearest_palette_entry_cex :
    XTERM_COLORS.getD 16 0 = 0x000000 ∧
    find_nearest_color (XTERM_COLORS.getD 16 0) XTERM_COLORS rgbDistSq = some (0, 0x000000) ∧
    find_nearest_color (XTERM_COLORS.getD 16 0) XTERM_COLORS rgbDistSq
      ≠ some (16, XTERM_COLORS.getD 16 0) := by
  refine ⟨by decide, by decide, by decide⟩

/-! ## The tokenizer as maximal runs (claim C8) -/

theorem tokenizeGo_acc (l : List Char) : ∀ acc : List Char, acc ≠ [] →
    tokenizeGo l acc
      = (acc.reverse ++ l.takeWhile isWordChar) :: tokenizeGo (l.dropWhile isWordChar) [] := by
  induction l with
  | nil =>
    intro acc hacc
    simp [tokenizeGo, hacc, List.takeWhile, List.dropWhile]
  | cons c cs ih =>
    intro acc hacc
    by_cases h : isWordChar c
    · have := ih (c :: acc) (by simp)
      simp only [tokenizeGo, h, if_pos, List.takeWhile, List.dropWhile] at this ⊢
      rw [this]
      simp [h]
    · simp only [tokenizeGo, h, List.takeWhile, List.dropWhile]
      simp [hacc, h, tokenizeGo]

theorem runs_cons_word (c : Char) (cs : List Char) (h : isWordChar c = true) :
    tokenizeGo (c :: cs) []
      = (c :: cs.takeWhile isWordChar) :: tokenizeGo (cs.dropWhile isWordChar) [] := by
  have h1 : tokenizeGo (c :: cs) [] = tokenizeGo cs [c] := by simp [tokenizeGo, h]
  rw [h1, tokenizeGo_acc cs [c] (by simp)]
  rfl

theorem runs_cons_nonword (c : Char) (cs : List Char) (h : isWordChar c = false) :
    tokenizeGo (c :: cs) [] = tokenizeGo cs [] := by
  simp [tokenizeGo, h]

theorem dropWhile_headNotWord (l : List Char) : headNotWord (l.dropWhile isWordChar) := by
  induction l with
  | nil => intro d hd; simp [List.dropWhile] at hd
  | cons c cs ih =>
    intro d hd
    by_cases h : isWordChar c
    · simp only [List.dropWhile, h] at hd
      exact ih d hd
    · simp only [List.dropWhile, Bool.not_eq_true] at hd
      rw [Bool.of_not_eq_true h] at hd
      simp only [List.head?] at hd
      injection hd with hd
      rw [← hd]
      exact Bool.of_not_eq_true h

theorem mem_takeWhile_word {l : List Char} {d : Char}
    (hd : d ∈ l.takeWhile isWordChar) : isWordChar d = true := by
  induction l with
  | nil => simp [List.takeWhile] at hd
  | cons c cs ih =>
    cases hw : isWordChar c with
    | true =>
      simp only [List.takeWhile, hw] at hd
      rcases List.mem_cons.1 hd with rfl | hd
      · exact hw
      · exact ih hd
    | false =>
      simp only [List.takeWhile, hw] at hd
      simp at hd

theorem length_dropWhile_le_local (p : Char → Bool) (l : List Char) :
    (l.dropWhile p).length ≤ l.length := by
  induction l with
  | nil => simp [List.dropWhile]
  | cons c cs ih =>
    cases hw : p c with
    | true =>
      simp only [List.dropWhile, hw]
      exact le_trans ih (by simp)
    | false =>
      simp only [List.dropWhile, hw]
      exact le_refl _

/-- The scanner's output is a maximal-run decomposition. -/
theorem runs_decomp_exists : ∀ l : List Char, RunsDecomp l (tokenizeGo l []) := by
  have key : ∀ (n : Nat) (l : List Char), l.length ≤ n → RunsDecomp l (tokenizeGo l []) := by
    intro n
    induction n with
    | zero =>
      intro l hl
      have : l = [] := List.length_eq_zero.1 (Nat.le_zero.1 hl)
      rw [this]
      exact .stop
    | succ n ih =>
      intro l hl
      match l with
      | [] => exact .stop
      | c :: cs =>
        by_cases h : isWordChar c
        · rw [runs_cons_word c cs h]
          have hlen : (cs.dropWhile isWordChar).length ≤ n := by
            have := length_dropWhile_le_local isWordChar cs
            simp only [List.length_cons] at hl
            omega
          have hdec := ih (cs.dropWhile isWordChar) hlen
          have htok := RunsDecomp.tok (c :: cs.takeWhile isWordChar) (cs.dropWhile isWordChar)
            (tokenizeGo (cs.dropWhile isWordChar) []) (by simp)
            (by
              intro d hd
              rcases List.mem_cons.1 hd with rfl | hd
              · exact h
              · exact mem_takeWhile_word hd)
            (dropWhile_headNotWord cs) hdec
          have hsplit : (c :: cs.takeWhile isWordChar) ++ cs.dropWhile isWordChar = c :: cs := by
            rw [List.cons_append, List.takeWhile_append_dropWhile]
          rwa [hsplit] at htok
        · rw [runs_cons_nonword c cs (Bool.of_not_eq_true h)]
          exact .skip c cs _ (Bool.of_not_eq_true h)
            (ih cs (by simp only [List.length_cons] at hl; omega))
  intro l
  exact key l.length l (le_refl _)

theorem runs_decomp_nil_aux : ∀ {l : List Char} {ts : List (List Char)},
    RunsDecomp l ts → l = [] → ts = [] := by
  intro l ts h
  cases h with
  | stop => intro; rfl
  | skip c cs ts h ih => intro he; exact absurd he (List.cons_ne_nil c cs)
  | tok t cs ts hne hall hnext ih =>
    intro he
    exact absurd (List.append_eq_nil.1 he).1 hne

theorem runs_decomp_nil {ts : List (List Char)} (h : RunsDecomp [] ts) : ts = [] :=
  runs_decomp_nil_aux h rfl

theorem runs_decomp_nonword_aux {c : Char} {cs : List Char} (hc : isWordChar c = false) :
    ∀ {l : List Char} {ts : List (List Char)},
      RunsDecomp l ts → l = c :: cs → RunsDecomp cs ts := by
  intro l ts h
  cases h with
  | stop => intro he; exact absurd he.symm (List.cons_ne_nil c cs)
  | skip c' cs' ts h ih =>
    intro he
    injection he with h1 h2
    exact h2 ▸ ih
  | tok t cs' ts hne hall hnext ih =>
    intro he
    exfalso
    match t, hne with
    | t0 :: t', _ =>
      rw [List.cons_append] at he
      injection he with h1 h2
      have := hall t0 (List.mem_cons_self _ _)
      rw [h1, hc] at this
      exact Bool.noConfusion this

theorem runs_decomp_nonword {c : Char} {cs : List Char} {ts : List (List Char)}
    (hc : isWordChar c = false) (h : RunsDecomp (c :: cs) ts) : RunsDecomp cs ts :=
  runs_decomp_nonword_aux hc h rfl

theorem runs_decomp_word_aux {c : Char} {cs : List Char} (hc : isWordChar c = true) :
    ∀ {l : List Char} {ts : List (List Char)},
      RunsDecomp l ts → l = c :: cs →
      ∃ t cs' ts', ts = t :: ts' ∧ c :: cs = t ++ cs' ∧ t ≠ [] ∧
        (∀ d ∈ t, isWordChar d = true) ∧ headNotWord cs' ∧ RunsDecomp cs' ts' := by
  intro l ts h
  cases h with
  | stop => intro he; exact absurd he.symm (List.cons_ne_nil c cs)
  | skip c' cs' ts h ih =>
    intro he
    exfalso
    injection he with h1 h2
    rw [h1, hc] at h
    exact Bool.noConfusion h
  | tok t cs' ts hne hall hnext ih =>
    intro he
    exact ⟨t, cs', ts, rfl, he.symm, hne, hall, hnext, ih⟩

theorem runs_decomp_word {c : Char} {cs : List Char} {ts : List (List Char)}
    (hc : isWordChar c = true) (h : RunsDecomp (c :: cs) ts) :
    ∃ t cs' ts', ts = t :: ts' ∧ c :: cs = t ++ cs' ∧ t ≠ [] ∧
      (∀ d ∈ t, isWordChar d = true) ∧ headNotWord cs' ∧ RunsDecomp cs' ts' :=
  runs_decomp_word_aux hc h rfl

/-- Aligning two maximal runs reading the same text: they are equal. -/
theorem runs_tok_align : ∀ (t₁ : List Char), ∀ {cs₁ t₂ cs₂ : List Char},
    t₁ ++ cs₁ = t₂ ++ cs₂ → t₁ ≠ [] → t₂ ≠ [] →
    (∀ d ∈ t₁, isWordChar d = true) → (∀ d ∈ t₂, isWordChar d = true) →
    headNotWord cs₁ → headNotWord cs₂ → t₁ = t₂ ∧ cs₁ = cs₂ := by
  intro t₁
  induction t₁ with
  | nil => intro cs₁ t₂ cs₂ heq hne1; exact absurd rfl hne1
  | cons a t₁' ih =>
    intro cs₁ t₂ cs₂ heq hne1 hne2 hall1 hall2 hnw1 hnw2
    match t₂, hne2 with
    | b :: t₂', _ =>
      rw [List.cons_append, List.cons_append] at heq
      injection heq with h1 h2
      cases ht1 : t₁' with
      | nil =>
        subst ht1
        cases ht2 : t₂' with
        | nil =>
          subst ht2
          simp only [List.nil_append] at h2
          exact ⟨by rw [h1], h2⟩
        | cons e t₂'' =>
          exfalso
          subst ht2
          simp only [List.nil_append, List.cons_append] at h2
          have he : isWordChar e = true := hall2 e (by simp)
          have hf := hnw1 e (by rw [h2]; rfl)
          rw [hf] at he
          exact Bool.noConfusion he
      | cons e t₁'' =>
        subst ht1
        cases ht2 : t₂' with
        | nil =>
          exfalso
          subst ht2
          simp only [List.nil_append, List.cons_append] at h2
          have he : isWordChar e = true := hall1 e (by simp)
          have hf := hnw2 e (by rw [← h2]; rfl)
          rw [hf] at he
          exact Bool.noConfusion he
        | cons f t₂'' =>
          subst ht2
          obtain ⟨ha, hb⟩ := ih h2 (by simp) (by simp)
            (fun d hd => hall1 d (List.mem_cons_of_mem _ hd))
            (fun d hd => hall2 d (List.mem_cons_of_mem _ hd)) hnw1 hnw2
          exact ⟨by rw [h1, ha], hb⟩

/-- A list has at most one maximal-run decomposition. -/
theorem runs_decomp_unique : ∀ (l : List Char) {ts₁ ts₂ : List (List Char)},
    RunsDecomp l ts₁ → RunsDecomp l ts₂ → ts₁ = ts₂ := by
  have key : ∀ (n : Nat) (l : List Char), l.length ≤ n → ∀ {ts₁ ts₂ : List (List Char)},
      RunsDecomp l ts₁ → RunsDecomp l ts₂ → ts₁ = ts₂ := by
    intro n
    induction n with
    | zero =>
      intro l hl ts₁ ts₂ h1 h2
      have : l = [] := List.length_eq_zero.1 (Nat.le_zero.1 hl)
      subst this
      rw [runs_decomp_nil h1, runs_decomp_nil h2]
    | succ n ih =>
      intro l hl ts₁ ts₂ h1 h2
      match l with
      | [] => rw [runs_decomp_nil h1, runs_decomp_nil h2]
      | c :: cs =>
        cases hc : isWordChar c with
        | false =>
          exact ih cs (by simp only [List.length_cons] at hl; omega)
            (runs_decomp_nonword hc h1) (runs_decomp_nonword hc h2)
        | true =>
          obtain ⟨t₁, cs₁, ts₁', rfl, hsp1, hne1, hall1, hnw1, hr1⟩ := runs_decomp_word hc h1
          obtain ⟨t₂, cs₂, ts₂', rfl, hsp2, hne2, hall2, hnw2, hr2⟩ := runs_decomp_word hc h2
          obtain ⟨hteq, hcseq⟩ :=
            runs_tok_align t₁ (hsp1.symm.trans hsp2) hne1 hne2 hall1 hall2 hnw1 hnw2
          have hlen : cs₁.length ≤ n := by
            have := congrArg List.length hsp1
            simp only [List.length_cons, List.length_append] at this hl
            match t₁, hne1 with
            | t0 :: t', _ => simp only [List.length_cons] at this; omega
          rw [hteq, ih cs₁ hlen hr1 (hcseq ▸ hr2)]
  intro l
  exact key l.length l (le_refl _)

theorem map_toList_tokenize (s : String) :
    (tokenize s).map String.toList = tokenizeGo s.toList [] := by
  rw [tokenize, List.map_map]
  have : ∀ L : List (List Char), L.map (String.toList ∘ List.asString) = L := by
    intro L
    induction L with
    | nil => rfl
    | cons a as ih => simp only [List.map_cons, ih]; rfl
  exact this _

/-- C8: the tokenizer splits any input text into the maximal runs of
letters (`\pL`), numbers (`\pN`) and the characters `+ * _ # -`,
dropping every other character as a separator — `tokenize` always
produces a maximal-run decomposition, such decompositions are unique,
and on the concrete examples `tokenize "objective-c" = ["objective-c"]`,
`tokenize "foo bar" = tokenize "foo/bar" = ["foo", "bar"]`, and (the
classes being full Unicode, not ASCII) `tokenize "é π" = ["é", "π"]`. -/
theorem tokenize_maximal_runs :
    (∀ s : String, RunsDecomp s.toList ((tokenize s).map String.toList)) ∧
    (∀ (l : List Char) (ts₁ ts₂ : List (List Char)),
      RunsDecomp l ts₁ → RunsDecomp l ts₂ → ts₁ = ts₂) ∧
    tokenize "objective-c" = ["objective-c"] ∧
    tokenize "foo bar" = ["foo", "bar"] ∧
    tokenize "foo/bar" = ["foo", "bar"] ∧
    tokenize "é π" = ["é", "π"] := by
  refine ⟨?_, ?_, by decide, by decide, by decide, by decide⟩
  · intro s
    rw [map_toList_tokenize]
    exact runs_decomp_exists s.toList
  · intro l ts₁ ts₂ h1 h2
    exact runs_decomp_unique l h1 h2

/-- Witness for C8's uniqueness hypothesis at a concrete input: the
decomposition of `"ab"` computed by `tokenize` is forced to be
`[['a', 'b']]` by uniqueness against an explicit derivation. -/
theorem tokenize_maximal_runs_witness :
    (tokenize "ab").map String.toList = [['a', 'b']] :=
  tokenize_maximal_runs.2.1 "ab".toList ((tokenize "ab").map String.toList) [['a', 'b']]
    (tokenize_maximal_runs.1 "ab")
    (RunsDecomp.tok ['a', 'b'] [] [] (by decide) (by decide)
      (fun d hd => Option.noConfusion hd) RunsDecomp.stop)

/-! ## Association-list and bucket lemmas -/

theorem lookup?_mem {m : List (String × β)} {k : String} {b : β}
    (h : lookup? m k = some b) : (k, b) ∈ m := by
  induction m with
  | nil => simp [lookup?] at h
  | cons p rest ih =>
    by_cases hk : p.1 = k
    · simp only [lookup?, hk, if_pos] at h
      injection h with h
      have hp : (k, b) = p := by
        obtain ⟨p1, p2⟩ := p
        simp only at hk h
        rw [hk, h]
      exact List.mem_cons.2 (Or.inl hp)
    · simp only [lookup?, hk, if_neg, not_false_iff] at h
      exact List.mem_cons_of_mem _ (ih h)

theorem lookup?_mapPush (m : ColorMap) (w : String) (p : String × Nat) (w' : String) :
    lookup? (mapPush m w p) w'
      = if w' = w then some (bucketOf m w ++ [p]) else lookup? m w' := by
  induction m with
  | nil =>
    by_cases h : w' = w
    · rw [if_pos h, h]
      simp [mapPush, lookup?, bucketOf]
    · have h2 : ¬ w = w' := fun he => h he.symm
      rw [if_neg h]
      simp [mapPush, lookup?, h2]
  | cons q rest ih =>
    obtain ⟨w0, ps⟩ := q
    simp only [mapPush]
    by_cases h0 : w0 = w
    · rw [if_pos h0]
      simp only [lookup?]
      by_cases h : w0 = w'
      · rw [if_pos h]
        have hww : w' = w := by rw [← h, h0]
        rw [if_pos hww]
        simp [bucketOf, lookup?, h0]
      · rw [if_neg h]
        have hww : ¬ w' = w := fun he => h (by rw [h0, ← he])
        rw [if_neg hww]
        simp [lookup?, h]
    · rw [if_neg h0]
      simp only [lookup?]
      by_cases h : w0 = w'
      · rw [if_pos h]
        have hww : ¬ w' = w := fun he => h0 (by rw [h, he])
        rw [if_neg hww]
        simp [lookup?, h]
      · rw [if_neg h, ih]
        by_cases hww : w' = w
        · rw [if_pos hww, if_pos hww]
          simp [bucketOf, lookup?, h0]
        · rw [if_neg hww, if_neg hww]
          simp [lookup?, h]

theorem bucketOf_mapPush (m : ColorMap) (w : String) (p : String × Nat) (w' : String) :
    bucketOf (mapPush m w p) w'
      = if w' = w then bucketOf m w ++ [p] else bucketOf m w' := by
  rw [bucketOf, lookup?_mapPush]
  by_cases h : w' = w <;> simp [h, bucketOf]

theorem bucketOf_tokenFold (p : String × Nat) (w : String) :
    ∀ (ts : List String) (m : ColorMap),
      bucketOf (ts.foldl (fun m word => mapPush m word p) m) w
        = bucketOf m w ++ List.replicate (ts.count w) p := by
  intro ts
  induction ts with
  | nil => intro m; simp [List.count_nil]
  | cons t ts ih =>
    intro m
    rw [List.foldl_cons, ih, bucketOf_mapPush]
    by_cases h : w = t
    · subst h
      rw [if_pos rfl, List.count_cons_self, List.append_assoc]
      congr 1
    · rw [if_neg h, List.count_cons_of_ne h]

theorem bucketOf_addEntry (m : ColorMap) (name : String) (lang : LinguistLang)
    (c : Nat) (w : String) :
    bucketOf (addEntry m name lang c) w
      = bucketOf m w ++ List.replicate ((entryTokens name lang).count w) (name, c) := by
  rw [addEntry, entryTokens]
  generalize entryKeywords name lang = kws
  induction kws generalizing m with
  | nil => simp [flatMapL, List.count_nil]
  | cons kw kws ih =>
    rw [List.foldl_cons, ih, bucketOf_tokenFold]
    rw [show flatMapL tokenize (kw :: kws) = tokenize kw ++ flatMapL tokenize kws from rfl]
    rw [List.count_append, List.append_assoc]
    congr 1
    rw [List.replicate_add]

theorem mem_replicate_pair {n : Nat} {p q : String × Nat} :
    q ∈ List.replicate n p ↔ n ≠ 0 ∧ q = p := List.mem_replicate

theorem count_pos_iff_mem_local {w : String} {ts : List String} :
    ts.count w ≠ 0 ↔ w ∈ ts := by
  constructor
  · intro h
    exact List.count_pos_iff_mem.1 (Nat.pos_of_ne_zero h)
  · intro h
    exact Nat.pos_iff_ne_zero.1 (List.count_pos_iff_mem.2 h)

theorem bucketOf_colorsFold (zipped : List ((String × LinguistLang) × Option Nat)) :
    ∀ (m₀ : ColorMap) (w : String) (nc : String × Nat),
      nc ∈ bucketOf (zipped.foldl
          (fun m pc =>
            match pc.2 with
            | none => m
            | some color => addEntry m pc.1.1 pc.1.2 color) m₀) w
        ↔ nc ∈ bucketOf m₀ w ∨
            ∃ p ∈ zipped, p.2 = some nc.2 ∧ p.1.1 = nc.1 ∧ w ∈ entryTokens p.1.1 p.1.2 := by
  induction zipped with
  | nil => intro m₀ w nc; simp
  | cons pc zipped ih =>
    intro m₀ w nc
    rw [List.foldl_cons]
    cases hc : pc.2 with
    | none =>
      simp only [hc]
      rw [ih]
      constructor
      · rintro (h | ⟨p, hp, hps⟩)
        · exact Or.inl h
        · exact Or.inr ⟨p, List.mem_cons_of_mem _ hp, hps⟩
      · rintro (h | ⟨p, hp, h2, h3, h4⟩)
        · exact Or.inl h
        · rcases List.mem_cons.1 hp with rfl | hp
          · rw [hc] at h2; exact absurd h2 (by simp)
          · exact Or.inr ⟨p, hp, h2, h3, h4⟩
    | some color =>
      simp only [hc]
      rw [ih]
      constructor
      · rintro (h | ⟨p, hp, hps⟩)
        · rw [bucketOf_addEntry] at h
          rcases List.mem_append.1 h with h | h
          · exact Or.inl h
          · obtain ⟨hcnt, rfl⟩ := mem_replicate_pair.1 h
            exact Or.inr ⟨pc, List.mem_cons_self _ _,
              by rw [hc], rfl, count_pos_iff_mem_local.1 hcnt⟩
        · exact Or.inr ⟨p, List.mem_cons_of_mem _ hp, hps⟩
      · rintro (h | ⟨p, hp, h2, h3, h4⟩)
        · left
          rw [bucketOf_addEntry]
          exact List.mem_append.2 (Or.inl h)
        · rcases List.mem_cons.1 hp with rfl | hp
          · left
            rw [bucketOf_addEntry]
            refine List.mem_append.2 (Or.inr ?_)
            refine mem_replicate_pair.2 ⟨count_pos_iff_mem_local.2 (h3 ▸ h4), ?_⟩
            rw [hc] at h2
            injection h2 with h2
            obtain ⟨n1, c1⟩ := nc
            simp only at h2 h3
            rw [← h3, h2]
          · exact Or.inr ⟨p, hp, h2, h3, h4⟩

/-! ## `mapMOpt` and zip lemmas -/

theorem mapMOpt_eq_none {f : α → Option β} : ∀ {l : List α},
    mapMOpt f l = none ↔ ∃ a ∈ l, f a = none := by
  intro l
  induction l with
  | nil => simp [mapMOpt]
  | cons a as ih =>
    cases hfa : f a with
    | none =>
      refine ⟨fun _ => ⟨a, List.mem_cons_self _ _, hfa⟩, fun _ => ?_⟩
      simp [mapMOpt, hfa]
    | some b =>
      cases hma : mapMOpt f as with
      | none =>
        refine ⟨fun _ => ?_, fun _ => ?_⟩
        · obtain ⟨x, hx, hfx⟩ := ih.1 hma
          exact ⟨x, List.mem_cons_of_mem _ hx, hfx⟩
        · simp [mapMOpt, hfa, hma]
      | some bs =>
        refine ⟨fun h => ?_, fun h => ?_⟩
        · simp [mapMOpt, hfa, hma] at h
        · obtain ⟨x, hx, hfx⟩ := h
          rcases List.mem_cons.1 hx with hxa | hx
          · rw [hxa, hfa] at hfx
            exact Option.noConfusion hfx
          · rw [ih.2 ⟨x, hx, hfx⟩] at hma
            exact Option.noConfusion hma

theorem mapMOpt_eq_some_forall₂ {f : α → Option β} : ∀ {l : List α} {bs : List β},
    mapMOpt f l = some bs ↔ List.Forall₂ (fun a b => f a = some b) l bs := by
  intro l
  induction l with
  | nil =>
    intro bs
    constructor
    · intro h
      injection h with h
      rw [← h]
      exact List.Forall₂.nil
    · intro h
      cases h
      rfl
  | cons a as ih =>
    intro bs
    constructor
    · intro h
      cases hfa : f a with
      | none => simp [mapMOpt, hfa] at h
      | some b =>
        cases hma : mapMOpt f as with
        | none => simp [mapMOpt, hfa, hma] at h
        | some bs' =>
          simp only [mapMOpt, hfa, hma] at h
          simp only [Option.bind, Option.map] at h
          injection h with h
          rw [← h]
          exact List.Forall₂.cons hfa (ih.1 hma)
    · intro h
      cases h with
      | cons hab htail =>
        rename_i b bs'
        have hma := ih.2 htail
        simp [mapMOpt, hab, hma]

theorem forall₂_zip_mem {R : α → β → Prop} : ∀ {l : List α} {cs : List β},
    List.Forall₂ R l cs → ∀ {x : α} {y : β}, (x, y) ∈ l.zip cs → x ∈ l ∧ R x y := by
  intro l cs h
  induction h with
  | nil => intro x y hxy; simp at hxy
  | cons hab htail ih =>
    intro x y hxy
    rcases List.mem_cons.1 hxy with he | hxy
    · injection he with h1 h2
      exact ⟨h1 ▸ List.mem_cons_self _ _, by rw [h1, h2]; exact hab⟩
    · obtain ⟨hx, hr⟩ := ih hxy
      exact ⟨List.mem_cons_of_mem _ hx, hr⟩

theorem forall₂_mem_zip {R : α → β → Prop} : ∀ {l : List α} {cs : List β},
    List.Forall₂ R l cs → ∀ {x : α}, x ∈ l → ∃ y, (x, y) ∈ l.zip cs ∧ R x y := by
  intro l cs h
  induction h with
  | nil => intro x hx; simp at hx
  | cons hab htail ih =>
    intro x hx
    rcases List.mem_cons.1 hx with he | hx
    · rename_i a b l' cs'
      exact ⟨b, by rw [he]; exact List.mem_cons_self _ _, he ▸ hab⟩
    · obtain ⟨y, hy, hr⟩ := ih hx
      exact ⟨y, List.mem_cons_of_mem _ hy, hr⟩

/-- Membership in a bucket of the built index, characterised in terms of
the dataset: `(n, c)` is in the bucket of token `w` exactly when some
entry named `n` has parsed color `c` and contributes the token `w`. -/
theorem colors_bucket_mem {l : Linguist} {m : ColorMap}
    (hm : Linguist.colors l = some m) (w : String) (nc : String × Nat) :
    nc ∈ bucketOf m w
      ↔ ∃ lang, (nc.1, lang) ∈ l ∧ entryColor lang = some (some nc.2) ∧
          w ∈ entryTokens nc.1 lang := by
  rw [Linguist.colors] at hm
  cases hcs : mapMOpt (fun p => entryColor p.2) l with
  | none => rw [hcs] at hm; exact absurd hm (by simp)
  | some cs =>
    rw [hcs] at hm
    simp only [Option.map_some'] at hm
    injection hm with hm
    have hF : List.Forall₂ (fun (p : String × LinguistLang) (c? : Option Nat) =>
        entryColor p.2 = some c?) l cs := mapMOpt_eq_some_forall₂.1 hcs
    rw [← hm, bucketOf_colorsFold]
    constructor
    · rintro (h | ⟨p, hp, h2, h3, h4⟩)
      · simp [bucketOf, lookup?] at h
      · obtain ⟨hpl, hR⟩ := forall₂_zip_mem hF hp
        refine ⟨p.1.2, ?_, ?_, ?_⟩
        · rw [← h3]
          exact hpl
        · rw [hR, h2]
        · rw [h3] at h4
          exact h4
    · rintro ⟨lang, hl, hc, hw⟩
      obtain ⟨c?, hz, hR⟩ := forall₂_mem_zip hF hl
      right
      have hR' : entryColor lang = some c? := hR
      have hceq : c? = some nc.2 := Option.some.inj (hR' ▸ hc)
      exact ⟨((nc.1, lang), c?), hz, hceq, rfl, hw⟩

theorem mem_flatMapL {f : α → List β} {b : β} : ∀ {l : List α},
    b ∈ flatMapL f l ↔ ∃ a ∈ l, b ∈ f a := by
  intro l
  induction l with
  | nil => simp [flatMapL]
  | cons a as ih =>
    simp only [flatMapL, List.mem_append, ih]
    constructor
    · rintro (h | ⟨x, hx, hb⟩)
      · exact ⟨a, List.mem_cons_self _ _, h⟩
      · exact ⟨x, List.mem_cons_of_mem _ hx, hb⟩
    · rintro ⟨x, hx, hb⟩
      rcases List.mem_cons.1 hx with he | hx
      · exact Or.inl (he ▸ hb)
      · exact Or.inr ⟨x, hx, hb⟩

theorem mem_queryPairs {m : ColorMap} {q : String} {nc : String × Nat} :
    nc ∈ queryPairs m q ↔ ∃ w ∈ tokenize q, nc ∈ bucketOf m w := by
  rw [queryPairs, mem_flatMapL]

/-! ## `BTreeMap` insertion lemmas -/

theorem lookup?_nil (k : String) : lookup? ([] : List (String × β)) k = none := rfl

theorem lookup?_cons (p : String × β) (rest : List (String × β)) (k : String) :
    lookup? (p :: rest) k = if p.1 = k then some p.2 else lookup? rest k := rfl

theorem lookup?_btInsert (m : List (String × Nat)) (k : String) (v : Nat) (n : String) :
    lookup? (btInsert m k v) n = if n = k then some v else lookup? m n := by
  induction m with
  | nil =>
    show lookup? [(k, v)] n = if n = k then some v else lookup? [] n
    rw [lookup?_cons]
    by_cases h : n = k
    · rw [if_pos h, if_pos h.symm]
    · rw [if_neg h, if_neg (fun he : (k, v).1 = n => h he.symm)]
  | cons q rest ih =>
    obtain ⟨k0, v0⟩ := q
    simp only [btInsert]
    by_cases h1 : k < k0
    · rw [if_pos h1, lookup?_cons]
      by_cases h : n = k
      · rw [if_pos h, if_pos (h.symm : (k, v).1 = n)]
      · rw [if_neg h, if_neg (fun he : (k, v).1 = n => h he.symm)]
    · rw [if_neg h1]
      by_cases h2 : k = k0
      · rw [if_pos h2, lookup?_cons, lookup?_cons]
        by_cases h : n = k
        · rw [if_pos h, if_pos (h.symm : (k, v).1 = n)]
        · rw [if_neg h, if_neg (fun he : (k, v).1 = n => h he.symm)]
          have hk0 : ¬ (k0, v0).1 = n := fun he => h (by rw [← he, h2])
          rw [if_neg hk0]
      · rw [if_neg h2, lookup?_cons, lookup?_cons]
        by_cases h0 : k0 = n
        · have hnk : ¬ n = k := fun he => h2 (he.symm.trans h0.symm)
          rw [if_pos (h0 : (k0, v0).1 = n), if_pos (h0 : (k0, v0).1 = n), if_neg hnk]
        · rw [if_neg (h0 : ¬ (k0, v0).1 = n), if_neg (h0 : ¬ (k0, v0).1 = n), ih]

theorem mem_btInsert {m : List (String × Nat)} {k : String} {v : Nat} {x : String × Nat}
    (h : x ∈ btInsert m k v) : x ∈ m ∨ x = (k, v) := by
  induction m with
  | nil =>
    simp [btInsert] at h
    exact Or.inr h
  | cons q rest ih =>
    obtain ⟨k0, v0⟩ := q
    simp only [btInsert] at h
    by_cases h1 : k < k0
    · rw [if_pos h1] at h
      rcases List.mem_cons.1 h with he | h
      · exact Or.inr he
      · exact Or.inl h
    · rw [if_neg h1] at h
      by_cases h2 : k = k0
      · rw [if_pos h2] at h
        rcases List.mem_cons.1 h with he | h
        · exact Or.inr he
        · exact Or.inl (List.mem_cons_of_mem _ h)
      · rw [if_neg h2] at h
        rcases List.mem_cons.1 h with he | h
        · exact Or.inl (he ▸ List.mem_cons_self _ _)
        · rcases ih h with h | h
          · exact Or.inl (List.mem_cons_of_mem _ h)
          · exact Or.inr h

theorem pairwise_btInsert {m : List (String × Nat)} (k : String) (v : Nat)
    (h : m.Pairwise (fun a b => a.1 < b.1)) :
    (btInsert m k v).Pairwise (fun a b => a.1 < b.1) := by
  induction m with
  | nil => simp [btInsert]
  | cons q rest ih =>
    obtain ⟨k0, v0⟩ := q
    rcases List.pairwise_cons.1 h with ⟨hq, hrest⟩
    simp only [btInsert]
    by_cases h1 : k < k0
    · rw [if_pos h1]
      refine List.pairwise_cons.2 ⟨?_, h⟩
      intro b hb
      rcases List.mem_cons.1 hb with he | hb
      · rw [he]; exact h1
      · exact lt_trans h1 (hq b hb)
    · rw [if_neg h1]
      by_cases h2 : k = k0
      · rw [if_pos h2]
        refine List.pairwise_cons.2 ⟨?_, hrest⟩
        intro b hb
        rw [h2]
        exact hq b hb
      · rw [if_neg h2]
        have hk0 : k0 < k := lt_of_le_of_ne (le_of_not_lt h1) (fun he => h2 he.symm)
        refine List.pairwise_cons.2 ⟨?_, ih hrest⟩
        intro b hb
        rcases mem_btInsert hb with hb | hb
        · exact hq b hb
        · rw [hb]; exact hk0

theorem lastVal_fold_init (n : String) : ∀ (ps : List (String × Nat)) (a : Option Nat),
    ps.foldl (fun acc p => if p.1 = n then some p.2 else acc) a
      = match lastVal ps n with
        | some v => some v
        | none => a := by
  intro ps
  induction ps with
  | nil => intro a; rfl
  | cons p ps ih =>
    intro a
    rw [List.foldl_cons, ih]
    have hr : lastVal (p :: ps) n
        = match lastVal ps n with
          | some v => some v
          | none => if p.1 = n then some p.2 else none := by
      rw [lastVal, List.foldl_cons, ih]
    rw [hr]
    cases lastVal ps n with
    | some v => rfl
    | none =>
      by_cases h : p.1 = n
      · rw [if_pos h, if_pos h]
      · rw [if_neg h, if_neg h]

theorem lookup?_btFold : ∀ (ps : List (String × Nat)) (m : List (String × Nat)) (n : String),
    lookup? (ps.foldl (fun bt p => btInsert bt p.1 p.2) m) n
      = match lastVal ps n with
        | some v => some v
        | none => lookup? m n := by
  intro ps
  induction ps with
  | nil => intro m n; rfl
  | cons p ps ih =>
    intro m n
    rw [List.foldl_cons, ih]
    have hr : lastVal (p :: ps) n
        = match lastVal ps n with
          | some v => some v
          | none => if p.1 = n then some p.2 else none := by
      rw [lastVal, List.foldl_cons, lastVal_fold_init]
    rw [hr]
    cases lastVal ps n with
    | some v => rfl
    | none =>
      rw [lookup?_btInsert]
      by_cases h : p.1 = n
      · rw [if_pos h, if_pos (h.symm : n = p.1)]
      · rw [if_neg h, if_neg (fun he : n = p.1 => h he.symm)]

theorem pairwise_btFold : ∀ (ps : List (String × Nat)) (m : List (String × Nat)),
    m.Pairwise (fun a b => a.1 < b.1) →
    (ps.foldl (fun bt p => btInsert bt p.1 p.2) m).Pairwise (fun a b => a.1 < b.1) := by
  intro ps
  induction ps with
  | nil => intro m h; exact h
  | cons p ps ih =>
    intro m h
    rw [List.foldl_cons]
    exact ih _ (pairwise_btInsert _ _ h)

theorem lookup?_eq_none_of_forall_gt {m : List (String × Nat)} {k : String}
    (h : ∀ x ∈ m, k < x.1) : lookup? m k = none := by
  induction m with
  | nil => rfl
  | cons q rest ih =>
    have hq := h q (List.mem_cons_self _ _)
    simp only [lookup?]
    rw [if_neg (fun he : q.1 = k => absurd (he ▸ hq) (lt_irrefl _))]
    exact ih (fun x hx => h x (List.mem_cons_of_mem _ hx))

/-- Two key-sorted association lists with the same lookup function are
equal. -/
theorem sorted_lookup_ext : ∀ (m₁ m₂ : List (String × Nat)),
    m₁.Pairwise (fun a b => a.1 < b.1) → m₂.Pairwise (fun a b => a.1 < b.1) →
    (∀ n, lookup? m₁ n = lookup? m₂ n) → m₁ = m₂ := by
  intro m₁
  induction m₁ with
  | nil =>
    intro m₂ h1 h2 hl
    cases m₂ with
    | nil => rfl
    | cons q rest =>
      exfalso
      have := hl q.1
      simp [lookup?] at this
  | cons p t₁ ih =>
    intro m₂ h1 h2 hl
    cases m₂ with
    | nil =>
      exfalso
      have := hl p.1
      simp [lookup?] at this
    | cons q t₂ =>
      rcases List.pairwise_cons.1 h1 with ⟨hp, ht1⟩
      rcases List.pairwise_cons.1 h2 with ⟨hq, ht2⟩
      have hkey : p.1 = q.1 := by
        rcases lt_trichotomy p.1 q.1 with hlt | heq | hgt
        · exfalso
          have h := hl p.1
          simp only [lookup?, if_pos rfl] at h
          rw [if_neg (fun he : q.1 = p.1 => absurd (he ▸ hlt) (lt_irrefl _))] at h
          rw [lookup?_eq_none_of_forall_gt (fun x hx => lt_trans hlt (hq x hx))] at h
          exact Option.noConfusion h
        · exact heq
        · exfalso
          have h := hl q.1
          simp only [lookup?, if_pos rfl] at h
          rw [if_neg (fun he : p.1 = q.1 => absurd (he ▸ hgt) (lt_irrefl _))] at h
          rw [lookup?_eq_none_of_forall_gt (fun x hx => lt_trans hgt (hp x hx))] at h
          exact Option.noConfusion h
      have hval : p.2 = q.2 := by
        have h := hl p.1
        simp only [lookup?, if_pos rfl] at h
        rw [if_pos hkey.symm] at h
        injection h
      have htl : t₁ = t₂ := by
        refine ih t₂ ht1 ht2 ?_
        intro n
        by_cases hn : n = p.1
        · rw [hn]
          rw [lookup?_eq_none_of_forall_gt hp,
            lookup?_eq_none_of_forall_gt (fun x hx => hkey ▸ hq x hx)]
        · have h := hl n
          simp only [lookup?] at h
          rw [if_neg (fun he : p.1 = n => hn he.symm),
            if_neg (fun he : q.1 = n => hn (by rw [← he, hkey]))] at h
          exact h
      obtain ⟨p1, p2⟩ := p
      obtain ⟨q1, q2⟩ := q
      simp only at hkey hval
      rw [hkey, hval, htl]

/-! ## Query evaluation lemmas -/

theorem fromNumPair_eq_some {p : String × Nat} (h : p.2 ≤ 0xFFFFFF) :
    (fromNum p.2).map (fun v => (p.1, v)) = some p := by
  rw [fromNum, if_pos h]
  rfl

theorem fromNumPair_eq_none {p : String × Nat} (h : ¬ p.2 ≤ 0xFFFFFF) :
    (fromNum p.2).map (fun v => (p.1, v)) = none := by
  rw [fromNum, if_neg h]
  rfl

theorem mapMOpt_conv_valid : ∀ {ps : List (String × Nat)},
    (∀ p ∈ ps, p.2 ≤ 0xFFFFFF) →
    mapMOpt (fun p => (fromNum p.2).map (fun v => (p.1, v))) ps = some ps := by
  intro ps
  induction ps with
  | nil => intro; rfl
  | cons p ps ih =>
    intro h
    have hp := h p (List.mem_cons_self _ _)
    have hps := ih (fun x hx => h x (List.mem_cons_of_mem _ hx))
    simp only [mapMOpt, fromNumPair_eq_some hp, hps]
    rfl

theorem query_eq_some_of_valid {m : ColorMap} {q : String}
    (hv : ∀ p ∈ queryPairs m q, p.2 ≤ 0xFFFFFF) :
    ColorMap.query m q
      = some ((queryPairs m q).foldl (fun bt p => btInsert bt p.1 p.2) []) := by
  rw [ColorMap.query, mapMOpt_conv_valid hv]
  rfl

theorem query_eq_none_of_invalid {m : ColorMap} {q : String}
    {p : String × Nat} (hp : p ∈ queryPairs m q) (hbad : ¬ p.2 ≤ 0xFFFFFF) :
    ColorMap.query m q = none := by
  rw [ColorMap.query, mapMOpt_eq_none.2 ⟨p, hp, fromNumPair_eq_none hbad⟩]
  rfl

theorem match_option_id (o : Option Nat) :
    (match o with | some v => some v | none => none) = o := by
  cases o <;> rfl

theorem lastVal_cons (p : String × Nat) (ps : List (String × Nat)) (n : String) :
    lastVal (p :: ps) n
      = match lastVal ps n with
        | some v => some v
        | none => if p.1 = n then some p.2 else none := by
  rw [lastVal, List.foldl_cons, lastVal_fold_init]

theorem lastVal_eq_some_mem {n : String} {v : Nat} : ∀ {ps : List (String × Nat)},
    lastVal ps n = some v → (n, v) ∈ ps := by
  intro ps
  induction ps with
  | nil => intro h; exact Option.noConfusion h
  | cons p ps ih =>
    intro h
    rw [lastVal_cons] at h
    cases hl : lastVal ps n with
    | some w =>
      rw [hl] at h
      injection h with h
      exact List.mem_cons_of_mem _ (ih (by rw [hl, h]))
    | none =>
      rw [hl] at h
      by_cases hp : p.1 = n
      · rw [if_pos hp] at h
        injection h with h
        refine List.mem_cons.2 (Or.inl ?_)
        obtain ⟨p1, p2⟩ := p
        simp only at hp h
        rw [hp, h]
      · rw [if_neg hp] at h
        exact Option.noConfusion h

theorem lastVal_eq_none_iff {n : String} : ∀ {ps : List (String × Nat)},
    lastVal ps n = none ↔ ∀ v, (n, v) ∉ ps := by
  intro ps
  induction ps with
  | nil => simp [lastVal]
  | cons p ps ih =>
    rw [lastVal_cons]
    cases hl : lastVal ps n with
    | some w =>
      constructor
      · intro h; exact Option.noConfusion h
      · intro h
        exfalso
        exact h w (List.mem_cons_of_mem _ (lastVal_eq_some_mem hl))
    | none =>
      by_cases hp : p.1 = n
      · rw [if_pos hp]
        constructor
        · intro h; exact Option.noConfusion h
        · intro h
          exfalso
          refine h p.2 (List.mem_cons.2 (Or.inl ?_))
          obtain ⟨p1, p2⟩ := p
          simp only at hp
          rw [hp]
      · rw [if_neg hp]
        constructor
        · intro _ v hv
          rcases List.mem_cons.1 hv with he | hv
          · exact hp (by rw [← he])
          · exact (ih.1 hl) v hv
        · intro; rfl

theorem lastVal_eq_some_of_mem {n : String} {v : Nat} {ps : List (String × Nat)}
    (hfun : ∀ v v' : Nat, (n, v) ∈ ps → (n, v') ∈ ps → v = v')
    (hv : (n, v) ∈ ps) : lastVal ps n = some v := by
  cases hl : lastVal ps n with
  | none => exact absurd hv (lastVal_eq_none_iff.1 hl v)
  | some w => rw [hfun w v (lastVal_eq_some_mem hl) hv]

theorem nodup_assoc_eq {l : Linguist} (hnd : (l.map Prod.fst).Nodup)
    {n : String} {a b : LinguistLang} (ha : (n, a) ∈ l) (hb : (n, b) ∈ l) : a = b := by
  induction l with
  | nil => simp at ha
  | cons p rest ih =>
    rw [List.map_cons, List.nodup_cons] at hnd
    rcases List.mem_cons.1 ha with hea | ha' <;> rcases List.mem_cons.1 hb with heb | hb'
    · rw [← hea] at heb; injection heb with h1 h2; exact h2.symm
    · exfalso
      refine hnd.1 ?_
      rw [← hea]
      exact List.mem_map.2 ⟨(n, b), hb', rfl⟩
    · exfalso
      refine hnd.1 ?_
      rw [← heb]
      exact List.mem_map.2 ⟨(n, a), ha', rfl⟩
    · exact ih hnd.2 ha' hb'

/-! ## Hexadecimal parsing bounds -/

theorem hexVal?_lt_16 {c : Char} {d : Nat} (h : hexVal? c = some d) : d < 16 := by
  rw [hexVal?] at h
  split_ifs at h with h1 h2 h3
  · injection h with h
    have hub : c.toNat ≤ 57 := h1.2
    have h0 : ('0' : Char).toNat = 48 := rfl
    omega
  · injection h with h
    have hub : c.toNat ≤ 102 := h2.2
    have h0 : ('a' : Char).toNat = 97 := rfl
    omega
  · injection h with h
    have hub : c.toNat ≤ 70 := h3.2
    have h0 : ('A' : Char).toNat = 65 := rfl
    omega

theorem foldl_hex_bound : ∀ (ds : List Nat) (a : Nat), (∀ d ∈ ds, d < 16) →
    ds.foldl (fun a d => a * 16 + d) a < (a + 1) * 16 ^ ds.length := by
  intro ds
  induction ds with
  | nil =>
    intro a _
    simp
  | cons d ds ih =>
    intro a h
    rw [List.foldl_cons]
    have hd := h d (List.mem_cons_self _ _)
    have hrec := ih (a * 16 + d) (fun x hx => h x (List.mem_cons_of_mem _ hx))
    refine lt_of_lt_of_le hrec ?_
    have hstep : a * 16 + d + 1 ≤ (a + 1) * 16 := by omega
    calc (a * 16 + d + 1) * 16 ^ ds.length
        ≤ ((a + 1) * 16) * 16 ^ ds.length := Nat.mul_le_mul_right _ hstep
      _ = (a + 1) * 16 ^ (d :: ds).length := by
          rw [List.length_cons, pow_succ]
          ring

theorem forall₂_hexVal_lt16 : ∀ {ds : List Char} {vals : List Nat},
    List.Forall₂ (fun a b => hexVal? a = some b) ds vals → ∀ d ∈ vals, d < 16 := by
  intro ds vals hF
  induction hF with
  | nil => intro d hd; simp at hd
  | cons hab htail ih =>
    intro d hd
    rcases List.mem_cons.1 hd with he | hd'
    · exact he ▸ hexVal?_lt_16 hab
    · exact ih d hd'

theorem fromStrRadix16_shape_bound {ds : List Char} {v : Nat}
    (hall : ∀ d ∈ ds, (hexVal? d).isSome) (hlen : ds.length ≤ 6)
    (h : fromStrRadix16 ds = some v) : v ≤ 0xFFFFFF := by
  have hplus : (if ds.head? = some '+' then ds.tail else ds) = ds := by
    cases hds : ds with
    | nil => rfl
    | cons c rest =>
      rw [if_neg]
      intro hc
      simp only [List.head?] at hc
      injection hc with hc
      have := hall c (hds ▸ List.mem_cons_self _ _)
      rw [hc] at this
      exact absurd this (by decide)
  rw [fromStrRadix16] at h
  simp only [hplus] at h
  by_cases hds : ds = []
  · rw [if_pos hds] at h
    exact Option.noConfusion h
  · rw [if_neg hds] at h
    cases hmm : mapMOpt hexVal? ds with
    | none =>
      rw [hmm] at h
      exact Option.noConfusion h
    | some vals =>
      rw [hmm] at h
      simp only at h
      by_cases hov : vals.foldl (fun a d => a * 16 + d) 0 < 2 ^ 32
      · rw [if_pos hov] at h
        injection h with h
        have hF := mapMOpt_eq_some_forall₂.1 hmm
        have hvals : ∀ d ∈ vals, d < 16 := forall₂_hexVal_lt16 hF
        have hlength : vals.length = ds.length := hF.length_eq.symm
        have hb := foldl_hex_bound vals 0 hvals
        rw [hlength] at hb
        have hpow : (16 : Nat) ^ ds.length ≤ 16 ^ 6 :=
          Nat.pow_le_pow_right (by norm_num) hlen
        have hv : v < 16 ^ 6 := by
          rw [← h]
          calc vals.foldl (fun a d => a * 16 + d) 0 < (0 + 1) * 16 ^ ds.length := hb
          _ = 16 ^ ds.length := by ring
          _ ≤ 16 ^ 6 := hpow
        omega
      · rw [if_neg hov] at h
        exact Option.noConfusion h

theorem mapMOpt_isSome {f : α → Option β} {l : List α} (h : ∀ a ∈ l, (f a).isSome) :
    ∃ bs, mapMOpt f l = some bs := by
  cases hm : mapMOpt f l with
  | none =>
    obtain ⟨a, ha, hfa⟩ := mapMOpt_eq_none.1 hm
    have := h a ha
    rw [hfa] at this
    exact absurd this (by simp)
  | some bs => exact ⟨bs, rfl⟩

theorem entryColor_hexShape {lang : LinguistLang} {c : String} (hc : lang.color = some c)
    (hs : hexShape c = true) :
    ∃ ds, c.toList = '#' :: ds ∧ entryColor lang = some (fromStrRadix16 ds) ∧
      ds.length ≤ 6 ∧ (∀ d ∈ ds, (hexVal? d).isSome) := by
  obtain ⟨ds, hds, hlen, hall⟩ : ∃ ds, c.toList = '#' :: ds ∧ ds.length ≤ 6 ∧
      ∀ d ∈ ds, (hexVal? d).isSome := by
    rw [hexShape] at hs
    split at hs
    · next ds heq =>
      rw [Bool.and_eq_true, decide_eq_true_eq, List.all_eq_true] at hs
      exact ⟨ds, heq, hs.1, fun d hd => hs.2 d hd⟩
    · exact Bool.noConfusion hs
  refine ⟨ds, hds, ?_, hlen, hall⟩
  rw [entryColor, hc]
  simp only [hds]
  rw [if_pos (by decide)]

theorem entryColor_isSome_headOneByte {lang : LinguistLang}
    (h : ∀ c, lang.color = some c → headOneByte c = true) : (entryColor lang).isSome := by
  cases hc : lang.color with
  | none =>
    rw [entryColor, hc]
    rfl
  | some c =>
    have hob := h c hc
    rw [headOneByte] at hob
    cases hl : c.toList with
    | nil =>
      rw [hl] at hob
      exact Bool.noConfusion hob
    | cons ch rest =>
      rw [hl] at hob
      simp only [beq_iff_eq] at hob
      rw [entryColor, hc]
      show (match c.toList with
        | [] => none
        | ch :: rest => if ch.utf8Size = 1 then some (fromStrRadix16 rest) else none).isSome = true
      rw [hl]
      show (if ch.utf8Size = 1 then some (fromStrRadix16 rest) else none).isSome = true
      rw [if_pos hob]
      rfl

theorem flatMapL_eq_nil {f : α → List β} : ∀ {l : List α},
    (∀ a ∈ l, f a = []) → flatMapL f l = [] := by
  intro l
  induction l with
  | nil => intro; rfl
  | cons a as ih =>
    intro h
    rw [show flatMapL f (a :: as) = f a ++ flatMapL f as from rfl,
      h a (List.mem_cons_self _ _), ih (fun x hx => h x (List.mem_cons_of_mem _ hx))]
    rfl

theorem buckets_le_of_stored {m : ColorMap}
    (h : ∀ b ∈ m, ∀ p ∈ b.2, p.2 ≤ 0xFFFFFF) :
    ∀ w, ∀ p ∈ bucketOf m w, p.2 ≤ 0xFFFFFF := by
  intro w p hp
  rw [bucketOf] at hp
  cases hlk : lookup? m w with
  | none =>
    rw [hlk] at hp
    simp at hp
  | some b =>
    rw [hlk] at hp
    exact h (w, b) (lookup?_mem hlk) p hp

theorem queryPairs_valid_of_buckets {m : ColorMap} {q : String}
    (hval : ∀ w, ∀ p ∈ bucketOf m w, p.2 ≤ 0xFFFFFF) :
    ∀ p ∈ queryPairs m q, p.2 ≤ 0xFFFFFF := by
  intro p hp
  obtain ⟨w, hw, hb⟩ := mem_queryPairs.1 hp
  exact hval w p hb

/-! ## Claim C7 -/

/-- C7 (corrected): for every index whose stored color values are all
valid 24-bit values (at most `0xFFFFFF` — without this the value
conversion panics, see the counterexample), `query` returns an ordinary
collection that is strictly sorted by name, is deduplicated by name with
later pair occurrences overwriting earlier ones (the value at each name
is the value of the last visited pair with that name), and in which a
token with no bucket contributes nothing: if no query token has a
bucket, the result is the empty collection, not an error. -/
theorem query_result_shape (m : ColorMap) (q : String)
    (hval : ∀ b ∈ m, ∀ p ∈ b.2, p.2 ≤ 0xFFFFFF) :
    ∃ r, ColorMap.query m q = some r ∧
      r.Pairwise (fun a b => a.1 < b.1) ∧
      (∀ n, lookup? r n = lastVal (queryPairs m q) n) ∧
      ((∀ w ∈ tokenize q, lookup? m w = none) → r = []) := by
  have hv := queryPairs_valid_of_buckets (q := q) (buckets_le_of_stored hval)
  refine ⟨_, query_eq_some_of_valid hv, ?_, ?_, ?_⟩
  · exact pairwise_btFold _ [] List.Pairwise.nil
  · intro n
    have h := lookup?_btFold (queryPairs m q) [] n
    rw [lookup?_nil] at h
    rw [h, match_option_id]
  · intro hmiss
    have hqp : queryPairs m q = [] := by
      rw [queryPairs]
      refine flatMapL_eq_nil ?_
      intro w hw
      rw [bucketOf, hmiss w hw]
      rfl
    rw [hqp]
    rfl

/-- C7 counterexample: on an index storing the value `0x1000000`
(beyond 24 bits), a query reaching that entry does not return a mapping
at all — the conversion `Color::from_num(..).unwrap()` panics. -/
theorem query_result_shape_cex :
    ColorMap.query [("x", [("x", 0x1000000)])] "x" = none := by decide

/-- Witness for C7 at a concrete valid index. -/
theorem query_result_shape_witness :
    ∃ r, ColorMap.query [("a", [("a", 3)])] "a" = some r ∧
      r.Pairwise (fun a b => a.1 < b.1) ∧
      (∀ n, lookup? r n = lastVal (queryPairs [("a", [("a", 3)])] "a") n) ∧
      ((∀ w ∈ tokenize "a", lookup? [("a", [("a", 3)])] w = none) → r = []) :=
  query_result_shape [("a", [("a", 3)])] "a" (by decide)

/-! ## Bounds on all stored values (claim C10) -/

theorem allStored_mapPush {Q : Nat → Prop} {m : ColorMap} {w : String} {p : String × Nat}
    (hm : ∀ b ∈ m, ∀ x ∈ b.2, Q x.2) (hp : Q p.2) :
    ∀ b ∈ mapPush m w p, ∀ x ∈ b.2, Q x.2 := by
  induction m with
  | nil =>
    intro b hb x hx
    rcases List.mem_cons.1 hb with he | hb
    · rw [he] at hx
      rcases List.mem_cons.1 hx with he2 | hx
      · rw [he2]; exact hp
      · simp at hx
    · simp at hb
  | cons q rest ih =>
    obtain ⟨w0, ps⟩ := q
    rw [mapPush]
    by_cases h0 : w0 = w
    · rw [if_pos h0]
      intro b hb x hx
      rcases List.mem_cons.1 hb with he | hb
      · rw [he] at hx
        rcases List.mem_append.1 hx with hx | hx
        · exact hm (w0, ps) (List.mem_cons_self _ _) x hx
        · rcases List.mem_cons.1 hx with he2 | hx
          · rw [he2]; exact hp
          · simp at hx
      · exact hm b (List.mem_cons_of_mem _ hb) x hx
    · rw [if_neg h0]
      intro b hb x hx
      rcases List.mem_cons.1 hb with he | hb
      · rw [he] at hx
        exact hm (w0, ps) (List.mem_cons_self _ _) x hx
      · exact ih (fun b hb => hm b (List.mem_cons_of_mem _ hb)) b hb x hx

theorem allStored_tokenFold {Q : Nat → Prop} {p : String × Nat} (hp : Q p.2) :
    ∀ (ts : List String) (m : ColorMap),
      (∀ b ∈ m, ∀ x ∈ b.2, Q x.2) →
      ∀ b ∈ ts.foldl (fun m word => mapPush m word p) m, ∀ x ∈ b.2, Q x.2 := by
  intro ts
  induction ts with
  | nil => intro m hm; exact hm
  | cons t ts ih =>
    intro m hm
    rw [List.foldl_cons]
    exact ih _ (allStored_mapPush hm hp)

theorem allStored_keywordFold {Q : Nat → Prop} {name : String} {c : Nat} (hc : Q c) :
    ∀ (kws : List String) (m : ColorMap), (∀ b ∈ m, ∀ x ∈ b.2, Q x.2) →
      ∀ b ∈ kws.foldl
          (fun m kw => (tokenize kw).foldl (fun m word => mapPush m word (name, c)) m) m,
        ∀ x ∈ b.2, Q x.2 := by
  intro kws
  induction kws with
  | nil => intro m hm; exact hm
  | cons kw kws ih =>
    intro m hm
    rw [List.foldl_cons]
    exact ih _ (allStored_tokenFold (p := (name, c)) hc (tokenize kw) m hm)

theorem allStored_addEntry {Q : Nat → Prop} {m : ColorMap} {name : String}
    {lang : LinguistLang} {c : Nat} (hm : ∀ b ∈ m, ∀ x ∈ b.2, Q x.2) (hc : Q c) :
    ∀ b ∈ addEntry m name lang c, ∀ x ∈ b.2, Q x.2 :=
  allStored_keywordFold hc (entryKeywords name lang) m hm

theorem allStored_colors {Q : Nat → Prop} {l : Linguist} {m : ColorMap}
    (hm : Linguist.colors l = some m)
    (hl : ∀ p ∈ l, ∀ c, entryColor p.2 = some (some c) → Q c) :
    ∀ b ∈ m, ∀ x ∈ b.2, Q x.2 := by
  rw [Linguist.colors] at hm
  cases hcs : mapMOpt (fun p => entryColor p.2) l with
  | none => rw [hcs] at hm; exact absurd hm (by simp)
  | some cs =>
    rw [hcs] at hm
    simp only [Option.map_some'] at hm
    injection hm with hm
    have hF : List.Forall₂ (fun (p : String × LinguistLang) (c? : Option Nat) =>
        entryColor p.2 = some c?) l cs := mapMOpt_eq_some_forall₂.1 hcs
    have hz : ∀ pc ∈ l.zip cs, ∀ c, pc.2 = some c → Q c := by
      intro pc hpc c hc
      obtain ⟨hx, hR⟩ := forall₂_zip_mem hF hpc
      refine hl pc.1 hx c ?_
      rw [hR, hc]
    rw [← hm]
    clear hm hcs hF hl
    generalize l.zip cs = zipped at hz
    have hinit : ∀ b ∈ ([] : ColorMap), ∀ x ∈ b.2, Q x.2 := by simp
    revert hinit
    generalize ([] : ColorMap) = m₀
    intro hinit
    induction zipped generalizing m₀ with
    | nil => exact hinit
    | cons pc zipped ih =>
      rw [List.foldl_cons]
      cases hc : pc.2 with
      | none =>
        simp only [hc]
        exact ih (fun x hx c hcx => hz x (List.mem_cons_of_mem _ hx) c hcx) _ hinit
      | some color =>
        simp only [hc]
        refine ih (fun x hx c hcx => hz x (List.mem_cons_of_mem _ hx) c hcx) _ ?_
        exact allStored_addEntry hinit (hz pc (List.mem_cons_self _ _) color hc)

/-- C10: the value conversion in `ColorMap::query` is an unchecked
unwrap.  (a) A query never panics provided every color value stored in
the index is at most `0xFFFFFF`; (b) that bound holds for every index
built from a dataset whose color strings are `#` followed by at most six
hex digits (and such a build always succeeds); (c) on some index holding
a value above `0xFFFFFF`, a query matching that entry panics. -/
theorem query_unwrap_safety :
    (∀ (m : ColorMap) (q : String), (∀ b ∈ m, ∀ p ∈ b.2, p.2 ≤ 0xFFFFFF) →
      (ColorMap.query m q).isSome) ∧
    (∀ l : Linguist, (∀ p ∈ l, ∀ c, p.2.color = some c → hexShape c = true) →
      ∃ m, Linguist.colors l = some m ∧ ∀ b ∈ m, ∀ p ∈ b.2, p.2 ≤ 0xFFFFFF) ∧
    ColorMap.query [("x", [("x", 0x1000000)])] "x" = none := by
  refine ⟨?_, ?_, by decide⟩
  · intro m q hval
    rw [query_eq_some_of_valid (queryPairs_valid_of_buckets (buckets_le_of_stored hval))]
    rfl
  · intro l hshape
    have hsome : ∃ cs, mapMOpt (fun p => entryColor p.2) l = some cs := by
      refine mapMOpt_isSome ?_
      intro p hp
      refine entryColor_isSome_headOneByte ?_
      intro c hc
      obtain ⟨ds, hds, _, _⟩ := entryColor_hexShape hc (hshape p hp c hc)
      rw [headOneByte, hds]
      rfl
    obtain ⟨cs, hcs⟩ := hsome
    have hmsome : ∃ m, Linguist.colors l = some m := by
      rw [Linguist.colors, hcs]
      exact ⟨_, rfl⟩
    obtain ⟨m, hm⟩ := hmsome
    refine ⟨m, hm, ?_⟩
    refine allStored_colors (Q := fun v => v ≤ 0xFFFFFF) hm ?_
    intro p hp c hec
    cases hcol : p.2.color with
    | none =>
      rw [entryColor, hcol] at hec
      injection hec with hec
      exact Option.noConfusion hec
    | some str =>
      obtain ⟨ds, hds, he2, hlen, hall⟩ := entryColor_hexShape hcol (hshape p hp str hcol)
      rw [he2] at hec
      injection hec with hec
      exact fromStrRadix16_shape_bound hall hlen hec

/-- Witness for C10's two hypothesis-bearing conjuncts at concrete
inputs. -/
theorem query_unwrap_safety_witness :
    (ColorMap.query [("a", [("a", 3)])] "a").isSome ∧
    (∃ m, Linguist.colors [("rust", ⟨some "#dea584", [], []⟩)] = some m ∧
      ∀ b ∈ m, ∀ p ∈ b.2, p.2 ≤ 0xFFFFFF) :=
  ⟨query_unwrap_safety.1 [("a", [("a", 3)])] "a" (by decide),
    query_unwrap_safety.2.1 [("rust", ⟨some "#dea584", [], []⟩)] (by decide)⟩

/-! ## Claims C3 and C9: malformed colors and panics in index building -/

/-- C3 counterexample: a dataset whose only entry has the present but
invalid hex color `"#zzzzzz"` builds **successfully** — no parse error —
producing an index in which the entry is simply absent.  The claim that
the whole dataset parse fails is false on the code:
`u32::from_str_radix(..).ok()` silently discards the error. -/
theorem colors_invalid_hex_cex :
    Linguist.colors [("x", ⟨some "#zzzzzz", [], []⟩)] = some [] := by decide

theorem colors_isSome_aux (l : Linguist)
    (h : ∀ p ∈ l, ∀ c, p.2.color = some c → headOneByte c = true) :
    ∃ m, Linguist.colors l = some m := by
  obtain ⟨cs, hcs⟩ := mapMOpt_isSome
    (f := fun p : String × LinguistLang => entryColor p.2) (l := l)
    (fun p hp => entryColor_isSome_headOneByte (h p hp))
  rw [Linguist.colors, hcs]
  exact ⟨_, rfl⟩

/-- C3 (corrected): for every dataset in which each present color string
is non-empty and starts with a single-byte character (so that the byte
slice `&c[1..]` cannot panic), building the index always returns `Ok` —
a malformed hex color string never causes a parse error; the entry is
silently skipped. -/
theorem colors_never_parse_error (l : Linguist)
    (h : ∀ p ∈ l, ∀ c, p.2.color = some c → headOneByte c = true) :
    ∃ m, Linguist.colors l = some m :=
  colors_isSome_aux l h

/-- Witness for C3's amended theorem: a two-entry dataset with one
invalid color and one absent color builds successfully. -/
theorem colors_never_parse_error_witness :
    ∃ m, Linguist.colors [("x", ⟨some "#zzz", [], []⟩), ("y", ⟨none, [], []⟩)] = some m :=
  colors_never_parse_error _ (by decide)

/-- C9 counterexample: the claim's precondition "each present color
string is non-empty" is not enough.  The color string `"é"` is
non-empty, but its first character occupies two bytes, so `&c[1..]`
slices inside a character boundary and panics: `Linguist::colors` does
not return `Ok`. -/
theorem colors_multibyte_panic_cex :
    Linguist.colors [("x", ⟨some "é", [], []⟩)] = none := by decide

theorem mapMOpt_congr {f g : α → Option β} : ∀ {l : List α},
    (∀ a ∈ l, f a = g a) → mapMOpt f l = mapMOpt g l := by
  intro l
  induction l with
  | nil => intro; rfl
  | cons a as ih =>
    intro h
    rw [show mapMOpt f (a :: as) = (f a).bind fun b => (mapMOpt f as).map (b :: ·) from rfl,
      show mapMOpt g (a :: as) = (g a).bind fun b => (mapMOpt g as).map (b :: ·) from rfl,
      h a (List.mem_cons_self _ _), ih (fun x hx => h x (List.mem_cons_of_mem _ hx))]

theorem entryColor_dropUnparsed (p : String × LinguistLang) :
    entryColor (dropUnparsed p).2 = entryColor p.2 := by
  rw [dropUnparsed]
  by_cases h : entryColor p.2 = some none
  · rw [if_pos h, h]
    rfl
  · rw [if_neg h]

/-- An entry whose color string fails to parse as hexadecimal is
treated by `Linguist::colors` exactly like an entry with no color at
all — replacing every such color
by `None` yields the same result (including the same panic behaviour). -/
theorem colors_dropUnparsed_eq (l : Linguist) :
    Linguist.colors (l.map dropUnparsed) = Linguist.colors l := by
  rw [Linguist.colors, Linguist.colors]
  have hmm : mapMOpt (fun p => entryColor p.2) (l.map dropUnparsed)
      = mapMOpt (fun p => entryColor p.2) l := by
    rw [show mapMOpt (fun p : String × LinguistLang => entryColor p.2) (l.map dropUnparsed)
        = mapMOpt (fun p : String × LinguistLang => entryColor (dropUnparsed p).2) l from ?_,
      mapMOpt_congr (fun p _ => entryColor_dropUnparsed p)]
    · induction l with
      | nil => rfl
      | cons p rest ih =>
        rw [List.map_cons]
        rw [show mapMOpt (fun p : String × LinguistLang => entryColor p.2)
            (dropUnparsed p :: rest.map dropUnparsed)
          = (entryColor (dropUnparsed p).2).bind fun b =>
              (mapMOpt (fun p : String × LinguistLang => entryColor p.2)
                (rest.map dropUnparsed)).map (b :: ·) from rfl, ih]
        rfl
  rw [hmm]
  clear hmm
  cases hcs : mapMOpt (fun p => entryColor p.2) l with
  | none => rfl
  | some cs =>
    simp only [Option.map_some']
    congr 1
    have hF : List.Forall₂ (fun (p : String × LinguistLang) (c? : Option Nat) =>
        entryColor p.2 = some c?) l cs := mapMOpt_eq_some_forall₂.1 hcs
    clear hcs
    have hinit : ∀ m₀ : ColorMap,
        ((l.map dropUnparsed).zip cs).foldl
          (fun m pc =>
            match pc.2 with
            | none => m
            | some color => addEntry m pc.1.1 pc.1.2 color) m₀
        = (l.zip cs).foldl
          (fun m pc =>
            match pc.2 with
            | none => m
            | some color => addEntry m pc.1.1 pc.1.2 color) m₀ := by
      induction hF with
      | nil => intro m₀; rfl
      | cons hab htail ih =>
        rename_i p c? rest cs'
        intro m₀
        rw [List.map_cons, List.zip_cons_cons, List.zip_cons_cons,
          List.foldl_cons, List.foldl_cons]
        cases hc : c? with
        | none => exact ih m₀
        | some color =>
          have hne : entryColor p.2 ≠ some none := by
            rw [hab, hc]
            intro h
            injection h with h
            exact Option.noConfusion h
          have hd : dropUnparsed p = p := by rw [dropUnparsed, if_neg hne]
          rw [hd]
          exact ih _
    exact hinit []

/-- C9 (corrected): for every dataset in which each present color string
is non-empty **and starts with a single-byte character**, `Linguist::colors`
returns `Ok`: an entry whose color string fails to parse as hexadecimal
(after dropping its first byte) is silently skipped exactly like an
entry with no color, and no error is returned.  The single-byte
condition is forced by the counterexample `"é"`, on which the byte slice
`&c[1..]` panics. -/
theorem colors_ok_and_skips_invalid (l : Linguist)
    (h : ∀ p ∈ l, ∀ c, p.2.color = some c → headOneByte c = true) :
    (∃ m, Linguist.colors l = some m) ∧
      Linguist.colors (l.map dropUnparsed) = Linguist.colors l :=
  ⟨colors_isSome_aux l h, colors_dropUnparsed_eq l⟩

/-- Witness for C9's amended theorem at a concrete dataset containing an
invalid hex color. -/
theorem colors_ok_and_skips_invalid_witness :
    (∃ m, Linguist.colors [("x", ⟨some "#nothex", [], []⟩)] = some m) ∧
      Linguist.colors ([("x", ⟨some "#nothex", [], []⟩)].map dropUnparsed)
        = Linguist.colors [("x", ⟨some "#nothex", [], []⟩)] :=
  colors_ok_and_skips_invalid _ (by decide)

/-! ## Claim C2: querying "RUST" vs "rust" -/

/-- C2 counterexample: with the dataset key `"Rust"` (color `#dea584`),
querying `"RUST"` and querying `"rust"` do **not** yield identical
results: canonical names are lowercased at deserialization, but query
tokens are not lowercased, so the uppercase query finds nothing. -/
theorem query_case_cex :
    (Linguist.colors (Linguist.deserialize [("Rust", ⟨some "#dea584", [], []⟩)])).map
        (fun m => ColorMap.query m "RUST")
      ≠ (Linguist.colors (Linguist.deserialize [("Rust", ⟨some "#dea584", [], []⟩)])).map
        (fun m => ColorMap.query m "rust") := by decide

/-- C2 (corrected): for a dataset whose single entry has canonical key
`"Rust"` and a valid color, querying the lowercase `"rust"` returns the
entry, while querying `"RUST"` returns the empty result: lookups are
case-sensitive on the query side, because only canonical names are
normalized to lowercase before storage. -/
theorem query_case_sensitivity (lang : LinguistLang) (v : Nat)
    (ha : lang.aliases = []) (he : lang.extensions = [])
    (hv : entryColor lang = some (some v)) (hb : v ≤ 0xFFFFFF) :
    (Linguist.colors (Linguist.deserialize [("Rust", lang)])).map
        (fun m => ColorMap.query m "rust") = some (some [("rust", v)]) ∧
    (Linguist.colors (Linguist.deserialize [("Rust", lang)])).map
        (fun m => ColorMap.query m "RUST") = some (some []) := by
  have hdes : Linguist.deserialize [("Rust", lang)] = [("rust", lang)] := by
    rw [Linguist.deserialize]
    show [(toAsciiLower "Rust", lang)] = [("rust", lang)]
    rw [show toAsciiLower "Rust" = "rust" from by decide]
  have hcolors : Linguist.colors [("rust", lang)] = some (addEntry [] "rust" lang v) := by
    rw [Linguist.colors]
    have hmm : mapMOpt (fun p : String × LinguistLang => entryColor p.2) [("rust", lang)]
        = some [some v] := by
      show (entryColor lang).bind
        (fun b => (mapMOpt (fun p : String × LinguistLang => entryColor p.2) []).map (b :: ·))
          = some [some v]
      rw [hv]
      rfl
    rw [hmm]
    rfl
  have haddE : addEntry [] "rust" lang v = [("rust", [("rust", v)])] := by
    rw [addEntry, entryKeywords, ha, he]
    show (tokenize "rust").foldl (fun m word => mapPush m word ("rust", v)) [] = _
    rw [show tokenize "rust" = ["rust"] from by decide]
    rfl
  have hm : Linguist.colors [("rust", lang)] = some [("rust", [("rust", v)])] := by
    rw [hcolors, haddE]
  have hq1 : ColorMap.query [("rust", [("rust", v)])] "rust" = some [("rust", v)] := by
    rw [ColorMap.query]
    have hqp : queryPairs [("rust", [("rust", v)])] "rust" = [("rust", v)] := by
      rw [queryPairs, show tokenize "rust" = ["rust"] from by decide]
      rfl
    rw [hqp]
    have hmm2 : mapMOpt (fun p : String × Nat => (fromNum p.2).map (fun w => (p.1, w)))
        [("rust", v)] = some [("rust", v)] := by
      refine mapMOpt_conv_valid ?_
      intro p hp
      rcases List.mem_cons.1 hp with he2 | h0
      · rw [he2]; exact hb
      · simp at h0
    rw [hmm2]
    rfl
  have hq2 : ColorMap.query [("rust", [("rust", v)])] "RUST" = some [] := by
    rw [ColorMap.query]
    have hbk : bucketOf [("rust", [("rust", v)])] "RUST" = [] := by
      rw [bucketOf, lookup?_cons, if_neg (by decide : ¬ ("rust" : String) = "RUST"),
        lookup?_nil]
      rfl
    have hqp : queryPairs [("rust", [("rust", v)])] "RUST" = [] := by
      rw [queryPairs, show tokenize "RUST" = ["RUST"] from by decide]
      show bucketOf [("rust", [("rust", v)])] "RUST"
        ++ flatMapL (fun w => bucketOf [("rust", [("rust", v)])] w) [] = []
      rw [hbk]
      rfl
    rw [hqp]
    rfl
  rw [hdes, hm]
  constructor
  · show some (ColorMap.query [("rust", [("rust", v)])] "rust") = some (some [("rust", v)])
    rw [hq1]
  · show some (ColorMap.query [("rust", [("rust", v)])] "RUST") = some (some [])
    rw [hq2]

/-- Witness for C2's amended theorem at the concrete color `#dea584`. -/
theorem query_case_sensitivity_witness :
    (Linguist.colors (Linguist.deserialize [("Rust", ⟨some "#dea584", [], []⟩)])).map
        (fun m => ColorMap.query m "rust") = some (some [("rust", 0xdea584)]) ∧
    (Linguist.colors (Linguist.deserialize [("Rust", ⟨some "#dea584", [], []⟩)])).map
        (fun m => ColorMap.query m "RUST") = some (some []) :=
  query_case_sensitivity ⟨some "#dea584", [], []⟩ 0xdea584 rfl rfl (by decide) (by decide)

/-! ## Claim C4: index/query round-trip -/

theorem queryPairs_mem_iff {l : Linguist} {m : ColorMap} (hm : Linguist.colors l = some m)
    {q : String} {nc : String × Nat} :
    nc ∈ queryPairs m q ↔ ∃ w ∈ tokenize q, ∃ lang, (nc.1, lang) ∈ l ∧
      entryColor lang = some (some nc.2) ∧ w ∈ entryTokens nc.1 lang := by
  rw [mem_queryPairs]
  constructor
  · rintro ⟨w, hw, hb⟩
    exact ⟨w, hw, (colors_bucket_mem hm w nc).1 hb⟩
  · rintro ⟨w, hw, h⟩
    exact ⟨w, hw, (colors_bucket_mem hm w nc).2 h⟩

theorem queryPairs_functional {l : Linguist} {m : ColorMap} (hm : Linguist.colors l = some m)
    (hnd : (l.map Prod.fst).Nodup) {q : String} {n : String} {v v' : Nat}
    (h1 : (n, v) ∈ queryPairs m q) (h2 : (n, v') ∈ queryPairs m q) : v = v' := by
  obtain ⟨w1, hw1, lang1, hl1, hc1, ht1⟩ := (queryPairs_mem_iff hm).1 h1
  obtain ⟨w2, hw2, lang2, hl2, hc2, ht2⟩ := (queryPairs_mem_iff hm).1 h2
  have hlang : lang1 = lang2 := nodup_assoc_eq hnd hl1 hl2
  rw [hlang] at hc1
  exact Option.some.inj (Option.some.inj (hc1 ▸ hc2))

theorem queryPairs_le_of_entries {l : Linguist} {m : ColorMap}
    (hm : Linguist.colors l = some m) {q : String}
    (hb : ∀ p ∈ l, ∀ c, entryColor p.2 = some (some c) → c ≤ 0xFFFFFF) :
    ∀ p ∈ queryPairs m q, p.2 ≤ 0xFFFFFF := by
  intro p hp
  obtain ⟨w, hw, lang, hl, hc, ht⟩ := (queryPairs_mem_iff hm).1 hp
  exact hb (p.1, lang) hl p.2 hc

/-- C4 (corrected): for every dataset entry that has a valid color,
**whose canonical name yields at least one token**, and under the
panic-free side condition that all parsed color values fit in 24 bits,
building the index and then querying the entry's exact canonical name
returns a result containing that entry's color under that name. -/
theorem index_query_roundtrip (l : Linguist) (m : ColorMap) (name : String)
    (lang : LinguistLang) (v : Nat)
    (hnd : (l.map Prod.fst).Nodup)
    (hmem : (name, lang) ∈ l)
    (hv : entryColor lang = some (some v))
    (htok : tokenize name ≠ [])
    (hb : ∀ p ∈ l, ∀ c, entryColor p.2 = some (some c) → c ≤ 0xFFFFFF)
    (hm : Linguist.colors l = some m) :
    ∃ r, ColorMap.query m name = some r ∧ lookup? r name = some v := by
  have hval := queryPairs_le_of_entries hm (q := name) hb
  refine ⟨_, query_eq_some_of_valid hval, ?_⟩
  have hlook := lookup?_btFold (queryPairs m name) [] name
  rw [lookup?_nil] at hlook
  rw [hlook, match_option_id]
  refine lastVal_eq_some_of_mem ?_ ?_
  · intro a b h1 h2
    exact queryPairs_functional hm hnd h1 h2
  · obtain ⟨w, hw⟩ : ∃ w, w ∈ tokenize name := by
      cases ht : tokenize name with
      | nil => exact absurd ht htok
      | cons w ws => exact ⟨w, List.mem_cons_self _ _⟩
    refine (queryPairs_mem_iff hm).2 ⟨w, hw, lang, hmem, hv, ?_⟩
    rw [entryTokens]
    exact mem_flatMapL.2 ⟨name, List.mem_cons_self _ _, hw⟩

/-- C4 counterexample: the entry `"."` has a valid color (`#123456`),
but its canonical name produces no tokens, so it is never indexed:
querying its exact canonical name returns the empty result, which does
not contain the entry's color. -/
theorem index_query_roundtrip_cex :
    (Linguist.colors [(".", ⟨some "#123456", [], []⟩)]).map
      (fun m => ColorMap.query m ".") = some (some []) := by decide

/-- Witness for C4's amended theorem at a concrete dataset. -/
theorem index_query_roundtrip_witness :
    ∃ r, ColorMap.query [("rust", [("rust", 0xdea584)])] "rust" = some r ∧
      lookup? r "rust" = some 0xdea584 :=
  index_query_roundtrip [("rust", ⟨some "#dea584", [], []⟩)]
    [("rust", [("rust", 0xdea584)])] "rust" ⟨some "#dea584", [], []⟩ 0xdea584
    (by decide) (by decide) (by decide) (by decide)
    (by
      intro p hp c hc
      rcases List.mem_cons.1 hp with he | h0
      · rw [he] at hc
        have h2 : entryColor (⟨some "#dea584", [], []⟩ : LinguistLang) = some (some c) := hc
        rw [show entryColor (⟨some "#dea584", [], []⟩ : LinguistLang)
            = some (some 0xdea584) from by decide] at h2
        injection h2 with h2
        injection h2 with h2
        omega
      · simp at h0)
    (by decide)

/-! ## Claim C6: end-to-end determinism -/

theorem colors_eq_none_iff {l : Linguist} :
    Linguist.colors l = none ↔ ∃ p ∈ l, entryColor p.2 = none := by
  rw [Linguist.colors]
  cases hcs : mapMOpt (fun p => entryColor p.2) l with
  | none =>
    simp only [Option.map_none']
    exact ⟨fun _ => mapMOpt_eq_none.1 hcs, fun _ => trivial⟩
  | some cs =>
    simp only [Option.map_some']
    constructor
    · intro h; exact Option.noConfusion h
    · intro h
      rw [mapMOpt_eq_none.2 h] at hcs
      exact Option.noConfusion hcs

/-- C6: building the index from the same dataset under any two hash-map
iteration orders (permutations of each other, with the no-duplicate-keys
invariant of the deserialized `HashMap`) and querying the same text
yields identical results — including identical panic behaviour.  The
whole pipeline is deterministic despite the internal ordering freedom. -/
theorem pipeline_deterministic (l₁ l₂ : Linguist) (q : String)
    (hperm : l₁.Perm l₂) (hnd : (l₁.map Prod.fst).Nodup) :
    (Linguist.colors l₁).map (fun m => ColorMap.query m q)
      = (Linguist.colors l₂).map (fun m => ColorMap.query m q) := by
  have hnd₂ : (l₂.map Prod.fst).Nodup := ((hperm.map Prod.fst).nodup_iff).1 hnd
  cases hm1 : Linguist.colors l₁ with
  | none =>
    obtain ⟨p, hp, hpc⟩ := colors_eq_none_iff.1 hm1
    rw [colors_eq_none_iff.2 ⟨p, hperm.mem_iff.1 hp, hpc⟩]
  | some m₁ =>
    cases hm2 : Linguist.colors l₂ with
    | none =>
      obtain ⟨p, hp, hpc⟩ := colors_eq_none_iff.1 hm2
      rw [colors_eq_none_iff.2 ⟨p, hperm.mem_iff.2 hp, hpc⟩] at hm1
      exact Option.noConfusion hm1
    | some m₂ =>
      simp only [Option.map_some']
      congr 1
      have hmemiff : ∀ nc : String × Nat, nc ∈ queryPairs m₁ q ↔ nc ∈ queryPairs m₂ q := by
        intro nc
        rw [queryPairs_mem_iff hm1, queryPairs_mem_iff hm2]
        constructor
        · rintro ⟨w, hw, lang, hl, h⟩
          exact ⟨w, hw, lang, hperm.mem_iff.1 hl, h⟩
        · rintro ⟨w, hw, lang, hl, h⟩
          exact ⟨w, hw, lang, hperm.mem_iff.2 hl, h⟩
      by_cases hval : ∀ p ∈ queryPairs m₁ q, p.2 ≤ 0xFFFFFF
      · have hval₂ : ∀ p ∈ queryPairs m₂ q, p.2 ≤ 0xFFFFFF :=
          fun p hp => hval p ((hmemiff p).2 hp)
        rw [query_eq_some_of_valid hval, query_eq_some_of_valid hval₂]
        congr 1
        refine sorted_lookup_ext _ _ (pairwise_btFold _ [] List.Pairwise.nil)
          (pairwise_btFold _ [] List.Pairwise.nil) ?_
        intro n
        have h1 := lookup?_btFold (queryPairs m₁ q) [] n
        have h2 := lookup?_btFold (queryPairs m₂ q) [] n
        rw [lookup?_nil] at h1 h2
        rw [h1, h2, match_option_id, match_option_id]
        cases hl1 : lastVal (queryPairs m₁ q) n with
        | none =>
          rw [eq_comm]
          rw [lastVal_eq_none_iff] at hl1 ⊢
          intro v hv
          exact hl1 v ((hmemiff (n, v)).2 hv)
        | some v =>
          rw [eq_comm]
          refine lastVal_eq_some_of_mem ?_ ?_
          · intro a b ha hb
            exact queryPairs_functional hm2 hnd₂ ha hb
          · exact (hmemiff (n, v)).1 (lastVal_eq_some_mem hl1)
      · push_neg at hval
        obtain ⟨p, hp, hbad⟩ := hval
        rw [query_eq_none_of_invalid hp (by omega),
          query_eq_none_of_invalid ((hmemiff p).1 hp) (by omega)]

/-- Witness for C6 at a concrete two-entry dataset presented in two
different orders. -/
theorem pipeline_deterministic_witness :
    (Linguist.colors [("a", ⟨some "#010203", [], []⟩), ("b", ⟨some "#040506", [], []⟩)]).map
        (fun m => ColorMap.query m "a b")
      = (Linguist.colors [("b", ⟨some "#040506", [], []⟩), ("a", ⟨some "#010203", [], []⟩)]).map
        (fun m => ColorMap.query m "a b") :=
  pipeline_deterministic _ _ "a b" (by decide) (by decide)
